import Mathlib

/-!
Verification of the psearch predecessor-search library against its
specification.  The Rust sources are shallowly embedded: machine words
(`u64`, `u32`, `u8`) become `Nat` with explicit wrap-around where the
source relies on it, fixed arrays become `Fin`-indexed functions or
lists, and fallible code returns `Option`.

The file has two parts: first all definitions (the embedding), then the
theorems about them.
-/

namespace PSearch

/-! ### Part 1: definitions -/

/-- Fuelled popcount worker (structural recursion keeps it kernel-computable). -/
def popCountFuel : Nat → Nat → Nat
  | 0, _ => 0
  | f + 1, x => if x = 0 then 0 else x % 2 + popCountFuel f (x / 2)

/-- Popcount of a natural number (`u64::count_ones` on values below `2 ^ 64`).
The fuel `x` always suffices because the argument halves at every step. -/
def popCount (x : Nat) : Nat := popCountFuel x x

/-- Bitwise complement on 64-bit words (`!x` in Rust on a `u64`). -/
def not64 (x : Nat) : Nat := (2 ^ 64 - 1) ^^^ x

/-- Wrapping 64-bit subtraction (release-mode `u64` subtraction in Rust).
For `b ≤ a < 2 ^ 64` it agrees with truncated subtraction. -/
def sub64 (a b : Nat) : Nat := (a + (2 ^ 64 - b % 2 ^ 64)) % 2 ^ 64

/-- Base-`2 ^ 9` packing of a list of digits (the layout used by `u9x7`). -/
def pack9 : List Nat → Nat
  | [] => 0
  | a :: l => a + 2 ^ 9 * pack9 l

namespace u9x7

/-- `u9x7::new` (src/array/u9x7.rs): pack seven 9-bit values into one word. -/
def new (d : Fin 7 → Nat) : Nat :=
  d 0 ||| (d 1 <<< 9) ||| (d 2 <<< 18) ||| (d 3 <<< 27) ||| (d 4 <<< 36)
    ||| (d 5 <<< 45) ||| (d 6 <<< 54)

/-- `u9x7::get` (src/array/u9x7.rs): extract field `i`. -/
def get (x : Nat) (i : Nat) : Nat := (x >>> (i * 9)) &&& 511

/-- The broadcast constant `SHIFT` from `u9x7::rank`. -/
def SHIFT : Nat :=
  1 ||| (1 <<< 9) ||| (1 <<< 18) ||| (1 <<< 27) ||| (1 <<< 36) ||| (1 <<< 45)
    ||| (1 <<< 54)

/-- The high-bit mask `H` from `u9x7::rank`. -/
def H : Nat :=
  (1 <<< 8) ||| (1 <<< 17) ||| (1 <<< 26) ||| (1 <<< 35) ||| (1 <<< 44)
    ||| (1 <<< 53) ||| (1 <<< 62)

/-- `u9x7::rank` (src/array/u9x7.rs): broadword count of fields `< needle`. -/
def rank (x : Nat) (needle : Nat) : Nat :=
  if 512 ≤ needle then 7
  else
    let y := needle * SHIFT
    popCount (((sub64 (x ||| H) (y &&& not64 H) ||| (x ^^^ y)) ^^^ (x ||| not64 y)) &&& H)

end u9x7


/-- Running prefix sums (`output[i] = output[i-1] + input[i]`, seeded by `run`). -/
def scanSums : Nat → List Nat → List Nat
  | _, [] => []
  | run, a :: l => (run + a) :: scanSums (run + a) l

/-- `u9x7::new` applied to (the first seven entries of) a list. -/
def u9x7newL (l : List Nat) : Nat := u9x7.new (fun i => l.getD i 0)

/-- The static bit-vector `SBitVec` (crates/succinct/src/select_rank/sbitvec.rs):
`blocks` are the 64-bit words, `index1` the packed `u9x7` per-super-block prefix
sums, `index2` the `[u16; 32]` per-group prefix sums, `index3` the running
group totals. -/
structure SBitVec where
  len : Nat
  blocks : List Nat
  index1 : List Nat
  index2 : List (List Nat)
  index3 : List Nat
deriving Repr, DecidableEq

/-- Loop state of `SBitVec::from_iter`: the vector under construction plus the
current 64-bit block and the scratch `index1`/`index2`/`index3` accumulators. -/
structure SBuild where
  sb : SBitVec
  block : Nat
  idx1 : List Nat
  idx2 : List Nat
  idx3 : Nat
deriving Repr

/-- One iteration of the `for (i, bit)` loop in `SBitVec::from_iter`. -/
def sbitvecStep (st : SBuild) (i : Nat) (bit : Bool) : SBuild :=
  let st := { st with sb := { st.sb with len := i } }
  let st :=
    if 0 < i then
      let st :=
        if i % 64 = 0 then
          { st with
            sb := { st.sb with blocks := st.sb.blocks ++ [st.block] },
            idx1 := st.idx1.set ((i / 64 - 1) % 8) (popCount st.block),
            block := 0 }
        else st
      let st :=
        if i % 512 = 0 then
          let out := scanSums 0 (st.idx1.take 7)
          { st with
            sb := { st.sb with index1 := st.sb.index1 ++ [u9x7newL out] },
            idx2 := st.idx2.set ((i / 512 - 1) % 33) (out.getD 6 0 + st.idx1.getD 7 0),
            idx1 := List.replicate 8 0 }
        else st
      let st :=
        if i % (512 * 33) = 0 then
          let out := scanSums 0 (st.idx2.take 32)
          let acc := st.idx3 + out.getD 31 0 + st.idx2.getD 32 0
          let sb2 := { st.sb with index2 := st.sb.index2 ++ [out] }
          let sb3 := { sb2 with index3 := sb2.index3 ++ [acc] }
          { st with sb := sb3, idx3 := acc, idx2 := List.replicate 33 0 }
        else st
      st
    else st
  if bit then { st with block := st.block ||| (1 <<< (i % 64)) } else st

/-- `SBitVec::from_iter` (crates/succinct/src/select_rank/sbitvec.rs): consume
the bits, then handle the stragglers.  Note the unconditional `len += 1`. -/
def SBitVec.fromIter (bits : List Bool) : SBitVec :=
  let st0 : SBuild :=
    { sb := { len := 0, blocks := [], index1 := [], index2 := [], index3 := [] },
      block := 0, idx1 := List.replicate 8 0, idx2 := List.replicate 33 0, idx3 := 0 }
  let st := bits.enum.foldl (fun st p => sbitvecStep st p.1 p.2) st0
  let len := st.sb.len + 1
  let i := len - 1
  let blocks := st.sb.blocks ++ [st.block]
  let idx1 := st.idx1.set ((i / 64) % 8) (popCount st.block)
  let out := scanSums 0 (idx1.take 7)
  let index1 := st.sb.index1 ++ [u9x7newL out]
  let idx2 := st.idx2.set ((i / 512) % 33) (out.getD 6 0 + idx1.getD 7 0)
  let out2 := scanSums 0 (idx2.take 32)
  let index2 := st.sb.index2 ++ [out2]
  let acc := st.idx3 + out2.getD 31 0 + idx2.getD 32 0
  let index3 := st.sb.index3 ++ [acc]
  { len := len, blocks := blocks, index1 := index1, index2 := index2, index3 := index3 }



/-- The `BadTrie` intermediate of SLOUDS construction
(src/succinct/slouds.rs): a `BTreeMap`-ordered list of children plus an
optional value. -/
inductive BadTrie (T : Type) where
  | node (children : List (Nat × BadTrie T)) (value : Option T)

/-- `BTreeMap::get` on a sorted association list. -/
def assocGet {α : Type} : List (Nat × α) → Nat → Option α
  | [], _ => none
  | (k', v') :: rest, k => if k = k' then some v' else assocGet rest k

/-- `BTreeMap::insert` on a sorted association list (insert or replace). -/
def assocSet {α : Type} : List (Nat × α) → Nat → α → List (Nat × α)
  | [], k, v => [(k, v)]
  | (k', v') :: rest, k, v =>
    if k < k' then (k, v) :: (k', v') :: rest
    else if k = k' then (k, v) :: rest
    else (k', v') :: assocSet rest k v

/-- The descent loop of `BadTrie::insert` for a non-empty key: walk all bytes
but the last, creating valueless nodes, then insert or overwrite the value at
the node for the last byte. -/
def BadTrie.insertGo {T : Type} : List Nat → BadTrie T → T → BadTrie T
  | [], t, _ => t
  | [k], .node ch val, v =>
    match assocGet ch k with
    | none => .node (assocSet ch k (.node [] (some v))) val
    | some (.node cch _) => .node (assocSet ch k (.node cch (some v))) val
  | k :: rest, .node ch val, v =>
    let child := match assocGet ch k with
      | none => .node [] none
      | some c => c
    .node (assocSet ch k (BadTrie.insertGo rest child v)) val

/-- `BadTrie::insert` (src/succinct/slouds.rs).  The source iterates
`0..(key.len() - 1)` and calls `key.last().unwrap()`: on the empty key the
subtraction underflows and the slice index / unwrap panics, which the
embedding reports as `none`. -/
def BadTrie.insertE {T : Type} (t : BadTrie T) (key : List Nat) (v : T) :
    Option (BadTrie T) :=
  match key with
  | [] => none
  | _ => some (BadTrie.insertGo key t v)

/-- The BFS serialization loop of `SloudsTrie::from_iter`: pop a node, emit one
`1` per child then a `0` into the LOUDS stream, the child labels into `bytes`,
the value presence into `has_value`, and push the children.  `fuel` bounds the
number of iterations; the caller passes at least the number of trie nodes. -/
def serializeBFS {T : Type} : Nat → List (BadTrie T) →
    List Bool × List Bool × List Nat × List T
  | 0, _ => ([], [], [], [])
  | _, [] => ([], [], [], [])
  | fuel + 1, .node ch val :: queue =>
    let rest := serializeBFS fuel (queue ++ ch.map Prod.snd)
    (List.replicate ch.length true ++ [false] ++ rest.1,
      val.isSome :: rest.2.1,
      ch.map Prod.fst ++ rest.2.2.1,
      (match val with | some v => v :: rest.2.2.2 | none => rest.2.2.2))

/-- The static LOUDS trie (src/succinct/slouds.rs). -/
structure SloudsTrie (T : Type) where
  trie : SBitVec
  has_value : SBitVec
  bytes : List Nat
  values : List T

/-- `SloudsTrie::from_iter` (src/succinct/slouds.rs): build the `BadTrie`,
BFS-serialize it, and freeze the two bit streams into `SBitVec`s.  A panic in
`BadTrie::insert` (empty key) is propagated as `none`.  The fuel
`1 + Σ |key|` dominates the number of trie nodes. -/
def SloudsTrie.fromIterE {T : Type} (input : List (List Nat × T)) :
    Option (SloudsTrie T) :=
  match input.foldlM (fun t (p : List Nat × T) => BadTrie.insertE t p.1 p.2)
      (BadTrie.node ([] : List (Nat × BadTrie T)) none) with
  | none => none
  | some trie =>
    let fuel := input.foldl (fun acc (p : List Nat × T) => acc + p.1.length) 1
    let out := serializeBFS fuel [trie]
    some { trie := SBitVec.fromIter out.1, has_value := SBitVec.fromIter out.2.1,
           bytes := out.2.2.1, values := out.2.2.2 }



/-- `pdep` worker: deposit bits of `src` at the positions of set bits of
`mask`, scanning 64 bit positions. -/
def pdepGo : Nat → Nat → Nat → Nat
  | 0, _, _ => 0
  | f + 1, src, mask =>
    if mask % 2 = 1 then src % 2 + 2 * pdepGo f (src / 2) (mask / 2)
    else 2 * pdepGo f src (mask / 2)

/-- BMI2 `_pdep_u64` (parallel bit deposit). -/
def pdep (src mask : Nat) : Nat := pdepGo 64 src mask

/-- `u64::trailing_zeros` (returns 64 on zero). -/
def trailingZeros64 (x : Nat) : Nat :=
  (((List.range 64).find? (fun i => x.testBit i)).getD 64)

/-- `<u64 as SelectRank>::rank1` (select_rank/u64.rs): popcount of the low
`i` bits via a wrapping left shift. -/
def u64rank1 (w i : Nat) : Nat :=
  if i = 0 then 0 else popCount ((w <<< (64 - i)) % 2 ^ 64)

/-- `<u64 as SelectRank>::select1`: position of the `i`-th set bit via
`pdep` and `trailing_zeros`. -/
def u64select1 (w i : Nat) : Nat := trailingZeros64 (pdep (1 <<< i) w)

/-- `<u64 as SelectRank>::select0`. -/
def u64select0 (w i : Nat) : Nat := trailingZeros64 (pdep (1 <<< i) (not64 w))

/-- Modelled from the spec: `u9x7::rank_zero`, absent from the sources under
src/ (only `rank` is there); §4.1 says "Complement gives `rank_zero`", i.e. it
ranks the needle against the per-field cumulative zero counts
`64·(i+1) - n_ones[i]`. -/
def u9x7rankZero (x needle : Nat) : Nat :=
  (List.range 7).countP (fun i => decide (64 * (i + 1) - u9x7.get x i < needle))

/-- `Bits512` (crates/succinct/src/select_rank/bits512.rs): up to 512 bits in
eight 64-bit words plus the packed `u9x7` prefix popcounts. -/
structure Bits512 where
  n_ones : Nat
  len : Nat
  bits : List Nat
deriving Repr, DecidableEq

namespace Bits512

/-- `Bits512::is_full`. -/
def is_full (b : Bits512) : Bool := b.len = 512

/-- `Bits512::num_ones`. -/
def num_ones (b : Bits512) : Nat :=
  u9x7.get b.n_ones 6 + popCount (b.bits.getD 7 0)

/-- `Bits512::num_zeros`. -/
def num_zeros (b : Bits512) : Nat := b.len - num_ones b

/-- `<Bits512 as SelectRank>::get_bit`. -/
def get_bit (b : Bits512) (index : Nat) : Bool :=
  b.bits.getD (index / 64) 0 &&& (1 <<< (index % 64)) ≠ 0

/-- `<Bits512 as SelectRank>::rank1`. -/
def rank1 (b : Bits512) (index : Nat) : Nat :=
  let upper := index / 64
  let lower := index % 64
  let bitsc := if lower = 0 then 0 else u64rank1 (b.bits.getD upper 0) lower
  let bytes := if upper = 0 then 0 else u9x7.get b.n_ones (upper - 1)
  bytes + bitsc

/-- `<Bits512 as SelectRank>::rank0`. -/
def rank0 (b : Bits512) (index : Nat) : Nat := index - rank1 b index

/-- `<Bits512 as SelectRank>::select1`. -/
def select1 (b : Bits512) (index : Nat) : Nat :=
  let rank := u9x7.rank b.n_ones (index + 1)
  let index := index - (if rank = 0 then 0 else u9x7.get b.n_ones (rank - 1))
  64 * rank + u64select1 (b.bits.getD rank 0) index

/-- `<Bits512 as SelectRank>::select0` (via the spec-modelled `rank_zero`). -/
def select0 (b : Bits512) (index : Nat) : Nat :=
  let rank := u9x7rankZero b.n_ones (index + 1)
  let index := index -
    (if rank = 0 then 0 else 64 * rank - u9x7.get b.n_ones (rank - 1))
  rank * 64 + u64select0 (b.bits.getD rank 0) index

/-- `Bits512::split` (crates/succinct/src/select_rank/bits512.rs): returns
(the surviving lower half, the new upper-half block). -/
def split (b : Bits512) : Bits512 × Bits512 :=
  let mid := u9x7.get b.n_ones 3
  let value := sub64 (((b.n_ones >>> (4 * 9))
      + num_ones b * ((1 <<< 27) ||| (1 <<< 36) ||| (1 <<< 45) ||| (1 <<< 54))) % 2 ^ 64)
    (mid * (1 ||| (1 <<< 9) ||| (1 <<< 18) ||| (1 <<< 27) ||| (1 <<< 36)
      ||| (1 <<< 45) ||| (1 <<< 54)))
  let new : Bits512 :=
    { bits := [b.bits.getD 4 0, b.bits.getD 5 0, b.bits.getD 6 0, b.bits.getD 7 0,
        0, 0, 0, 0],
      len := 256,
      n_ones := value }
  let clear_upper := b.n_ones &&& ((1 <<< 36) - 1)
  let self' : Bits512 :=
    { len := 256,
      bits := [b.bits.getD 0 0, b.bits.getD 1 0, b.bits.getD 2 0, b.bits.getD 3 0,
        0, 0, 0, 0],
      n_ones := clear_upper + mid * ((1 <<< 36) ||| (1 <<< 45) ||| (1 <<< 54)) }
  (self', new)

end Bits512

/-- Cumulative popcount of the first `k` words of a word list. -/
def wordsOnesPre (ws : List Nat) (k : Nat) : Nat :=
  ((ws.take k).map popCount).sum

/-- The `n_ones` directory recomputed from scratch for a word list, as the
`Bits512` invariant demands (`n_ones[i]` = popcount of the first `i+1`
sub-words). -/
def Bits512.recompute (ws : List Nat) (len : Nat) : Bits512 :=
  { n_ones := u9x7.new (fun i => wordsOnesPre ws (i.val + 1)), len := len, bits := ws }


/-! #### ByteMap (src/src/bytemap.rs) -/

/-- Result of `ByteMap::entry`: which kind of entry, with the internal rank. -/
inductive BEntry where
  | occupied (rank : Nat)
  | vacant (rank : Nat)
deriving DecidableEq, Repr

/-- `ByteMap<T>` (src/src/bytemap.rs): adaptive byte-keyed node. Arrays become
lists: `bytes`/`values` of length 4 resp. 16 for `Node4`/`Node16`;
`positions` of length 256 (entry 255 = `0xFF` marks absence) and `values` of
length 48 for `Node48`; `values` of length 256 for `Node256`. -/
inductive ByteMap (T : Type) where
  | N4 (len : Nat) (bytes : List Nat) (values : List (Option T))
  | N16 (len : Nat) (bytes : List Nat) (values : List (Option T))
  | N48 (len : Nat) (positions : List Nat) (values : List (Option T))
  | N256 (len : Nat) (values : List (Option T))

/-- The `for (i, b) in ... { if p(b) { return values[i].map(...) } }` loops of
`ByteMap::predecessor`/`successor` over a byte/value sequence: return at the
first pair whose byte satisfies `p` (yielding `none` if its value slot is
empty, exactly as the Rust `return n.values[i].as_ref().map(...)` does). -/
def scanFirst {T : Type} (p : Nat → Bool) : List (Nat × Option T) → Option (Nat × T)
  | [] => none
  | (b, v) :: rest => if p b then v.map (fun x => (b, x)) else scanFirst p rest

/-- The `for b in (0..=byte).rev()` loops of `ByteMap::predecessor` for
`Node48`/`Node256`: `g c = none` means "slot `c` empty, keep scanning",
`g c = some o` means "return `o.map (fun v => (c, v))` now". -/
def scanDownGo {T : Type} (g : Nat → Option (Option T)) : Nat → Option (Nat × T)
  | 0 =>
    match g 0 with
    | none => none
    | some o => o.map (fun v => (0, v))
  | b + 1 =>
    match g (b + 1) with
    | none => scanDownGo g b
    | some o => o.map (fun v => (b + 1, v))

/-- The `for b in byte..=255` loops of `ByteMap::successor` for
`Node48`/`Node256`, with explicit fuel `256 - byte`. -/
def scanUpGo {T : Type} (g : Nat → Option (Option T)) : Nat → Nat → Option (Nat × T)
  | _, 0 => none
  | b, fuel + 1 =>
    match g b with
    | none => scanUpGo g (b + 1) fuel
    | some o => o.map (fun v => (b, v))

namespace ByteMap

variable {T : Type}

/-- `ByteMap::new`. -/
def new : ByteMap T := .N4 0 [0, 0, 0, 0] [none, none, none, none]

/-- `ByteMap::predecessor` (src/src/bytemap.rs): scan down for the closest
present entry at or below `byte`. -/
def predecessor (m : ByteMap T) (byte : Nat) : Option (Nat × T) :=
  match m with
  | .N4 len bytes values =>
    if len = 0 then none
    else scanFirst (fun b => decide (b ≤ byte)) (((bytes.take len).zip values).reverse)
  | .N16 len bytes values =>
    scanFirst (fun b => decide (b ≤ byte)) (((bytes.take len).zip values).reverse)
  | .N48 _ positions values =>
    scanDownGo (fun c => if positions.getD c 255 < 48
      then some (values.getD (positions.getD c 255) none) else none) byte
  | .N256 _ values =>
    scanDownGo (fun c => if (values.getD c none).isSome
      then some (values.getD c none) else none) byte

/-- `ByteMap::predecessor_mut`: same scans as `predecessor` (the source bodies
are identical up to `as_ref`/`as_mut`). -/
def predecessor_mut (m : ByteMap T) (byte : Nat) : Option (Nat × T) :=
  match m with
  | .N4 len bytes values =>
    if len = 0 then none
    else scanFirst (fun b => decide (b ≤ byte)) (((bytes.take len).zip values).reverse)
  | .N16 len bytes values =>
    scanFirst (fun b => decide (b ≤ byte)) (((bytes.take len).zip values).reverse)
  | .N48 _ positions values =>
    scanDownGo (fun c => if positions.getD c 255 < 48
      then some (values.getD (positions.getD c 255) none) else none) byte
  | .N256 _ values =>
    scanDownGo (fun c => if (values.getD c none).isSome
      then some (values.getD c none) else none) byte

/-- `ByteMap::successor`: scan up for the closest present entry at or above
`byte`.  Note the `Node4`/`Node16` branches iterate over the whole `bytes`
array (not just `bytes[..len]`), exactly as the source does. -/
def successor (m : ByteMap T) (byte : Nat) : Option (Nat × T) :=
  match m with
  | .N4 len bytes values =>
    if len = 0 then none
    else scanFirst (fun b => decide (byte ≤ b)) (bytes.zip values)
  | .N16 _ bytes values =>
    scanFirst (fun b => decide (byte ≤ b)) (bytes.zip values)
  | .N48 _ positions values =>
    scanUpGo (fun c => if positions.getD c 255 < 48
      then some (values.getD (positions.getD c 255) none) else none) byte (256 - byte)
  | .N256 _ values =>
    scanUpGo (fun c => if (values.getD c none).isSome
      then some (values.getD c none) else none) byte (256 - byte)

/-- `ByteMap::successor_mut`: same scans as `successor`. -/
def successor_mut (m : ByteMap T) (byte : Nat) : Option (Nat × T) :=
  match m with
  | .N4 len bytes values =>
    if len = 0 then none
    else scanFirst (fun b => decide (byte ≤ b)) (bytes.zip values)
  | .N16 _ bytes values =>
    scanFirst (fun b => decide (byte ≤ b)) (bytes.zip values)
  | .N48 _ positions values =>
    scanUpGo (fun c => if positions.getD c 255 < 48
      then some (values.getD (positions.getD c 255) none) else none) byte (256 - byte)
  | .N256 _ values =>
    scanUpGo (fun c => if (values.getD c none).isSome
      then some (values.getD c none) else none) byte (256 - byte)

/-- The entry lookup loop of `ByteMap::entry` for `Node4`/`Node16` over
`bytes[..len]`: stop with `Occupied(i)` on equality, `Vacant(rank)` at the
first byte above `key` or at the end. -/
def linEntryGo (key : Nat) : List Nat → Nat → BEntry
  | [], rank => .vacant rank
  | b :: rest, rank =>
    if b = key then .occupied rank
    else if key < b then .vacant rank
    else linEntryGo key rest (rank + 1)

/-- `ByteMap::entry`. -/
def entry (m : ByteMap T) (key : Nat) : BEntry :=
  match m with
  | .N4 len bytes _ => linEntryGo key (bytes.take len) 0
  | .N16 len bytes _ => linEntryGo key (bytes.take len) 0
  | .N48 _ positions _ =>
    if positions.getD key 255 < 48 then .occupied 0 else .vacant 0
  | .N256 _ values =>
    if (values.getD key none).isSome then .occupied 0 else .vacant 0

/-- The present entries of a `ByteMap`, read off exactly as
`ByteMap::entry` tests occupancy and `OccupiedEntry::get_mut` fetches the
value: an equality scan of `bytes[..len]` for `Node4`/`Node16`,
`positions[k] < 48` indirection for `Node48`, direct slot for `Node256`. -/
def content (m : ByteMap T) (k : Nat) : Option T :=
  match m with
  | .N4 len bytes values =>
    (scanFirst (fun b => decide (b = k)) ((bytes.take len).zip values)).map Prod.snd
  | .N16 len bytes values =>
    (scanFirst (fun b => decide (b = k)) ((bytes.take len).zip values)).map Prod.snd
  | .N48 _ positions values =>
    if positions.getD k 255 < 48 then values.getD (positions.getD k 255) none else none
  | .N256 _ values => values.getD k none

/-- Closed form of the right-shift loops in `VacantEntry::insert` for
`Node4`/`Node16` (`for i in ((rank+1)..len).rev() { a[i] = a[i-1] }` followed
by `a[rank] = x`): element `x` lands at `rank`, everything from `rank` on
moves right one slot, the last element falls off. -/
def linInsertAt {α : Type} (l : List α) (rank : Nat) (x : α) : List α :=
  l.take rank ++ x :: (l.drop rank).dropLast

/-- Closed form of the left-shift loops in `OccupiedEntry::remove` for
`Node4`/`Node16` (`for i in rank..(len-1) { a[i] = a[i+1] }` followed by
`a[len-1] = d`). -/
def linRemoveAt {α : Type} (l : List α) (rank : Nat) (d : α) : List α :=
  l.take rank ++ (l.drop (rank + 1) ++ [d])

/-- `ByteMap::upsize`. -/
def upsize (m : ByteMap T) : ByteMap T :=
  match m with
  | .N4 len bytes values =>
    .N16 len
      ([bytes.getD 0 0, bytes.getD 1 0, bytes.getD 2 0, bytes.getD 3 0]
        ++ List.replicate 12 0)
      ([values.getD 0 none, values.getD 1 none, values.getD 2 none,
        values.getD 3 none] ++ List.replicate 12 none)
  | .N16 len bytes values =>
    .N48 len
      ((List.range 16).foldl (fun ps i => ps.set (bytes.getD i 0) i)
        (List.replicate 256 255))
      ((List.range 16).map (fun i => values.getD i none) ++ List.replicate 32 none)
  | .N48 len positions values =>
    .N256 len ((List.range 256).map (fun i =>
      if positions.getD i 255 < 48 then values.getD (positions.getD i 255) none
      else none))
  | m => m

/-- `VacantEntry::insert`: upsize first when the node is exactly full, then
place the value. -/
def vacantInsert (m : ByteMap T) (key rank : Nat) (value : T) : ByteMap T :=
  let m :=
    match m with
    | .N4 l _ _ => if l = 4 then m.upsize else m
    | .N16 l _ _ => if l = 16 then m.upsize else m
    | .N48 l _ _ => if l = 48 then m.upsize else m
    | _ => m
  match m with
  | .N4 len bytes values =>
    .N4 (len + 1) (linInsertAt bytes rank key) (linInsertAt values rank (some value))
  | .N16 len bytes values =>
    .N16 (len + 1) (linInsertAt bytes rank key) (linInsertAt values rank (some value))
  | .N48 len positions values =>
    .N48 (len + 1) (positions.set key len) (values.set len (some value))
  | .N256 len values =>
    .N256 (len + 1) (values.set key (some value))

/-- The occupied branch of `ByteMap::insert`
(`std::mem::replace(o.get_mut(), value)`): overwrite in place through the
same slot `OccupiedEntry::get_mut` addresses. -/
def occupiedSet (m : ByteMap T) (key rank : Nat) (value : T) : ByteMap T :=
  match m with
  | .N4 len bytes values => .N4 len bytes (values.set rank (some value))
  | .N16 len bytes values => .N16 len bytes (values.set rank (some value))
  | .N48 len positions values =>
    .N48 len positions (values.set (positions.getD key 255) (some value))
  | .N256 len values => .N256 len (values.set key (some value))

/-- `OccupiedEntry::remove`.  For `Node48`, `last` is the first byte whose
position equals the new length (the source's
`positions.iter().position(|p| *p == *len as u8).unwrap()`); under the
reachable-state invariant the `find?` always succeeds, so the `none` fallback
(which skips the swap, as an unreachable Rust `unwrap` panic) never fires. -/
def occupiedRemove (m : ByteMap T) (key rank : Nat) : ByteMap T :=
  match m with
  | .N4 len bytes values =>
    .N4 (len - 1) (linRemoveAt bytes rank 0) (linRemoveAt values rank none)
  | .N16 len bytes values =>
    .N16 (len - 1) (linRemoveAt bytes rank 0) (linRemoveAt values rank none)
  | .N48 len positions values =>
    let pos := positions.getD key 255
    let positions2 := positions.set key 255
    let len2 := len - 1
    if pos = len2 then .N48 len2 positions2 (values.set len2 none)
    else
      match (List.range 256).find? (fun b => decide (positions2.getD b 255 = len2)) with
      | some last =>
        let j := positions2.getD last 255
        let values2 := (values.set j (values.getD pos none)).set pos (values.getD j none)
        .N48 len2 (positions2.set last pos) (values2.set len2 none)
      | none => .N48 len2 positions2 (values.set len2 none)
  | .N256 len values => .N256 (len - 1) (values.set key none)

/-- `ByteMap::insert` via `entry`. -/
def insert (m : ByteMap T) (key : Nat) (value : T) : ByteMap T :=
  match m.entry key with
  | .vacant rank => m.vacantInsert key rank value
  | .occupied rank => m.occupiedSet key rank value

/-- Removal through `ByteMap::entry` + `OccupiedEntry::remove` (a vacant
entry is left untouched). -/
def remove (m : ByteMap T) (key : Nat) : ByteMap T :=
  match m.entry key with
  | .occupied rank => m.occupiedRemove key rank
  | .vacant _ => m

end ByteMap

/-- The `ByteMap`s producible by the public constructor and any sequence of
`insert`/`remove` operations on byte keys. -/
inductive BMReachable {T : Type} : ByteMap T → Prop where
  | new : BMReachable ByteMap.new
  | insert {m : ByteMap T} (key : Nat) (value : T) :
      BMReachable m → key < 256 → BMReachable (m.insert key value)
  | remove {m : ByteMap T} (key : Nat) :
      BMReachable m → key < 256 → BMReachable (m.remove key)


/-- Representation invariant for the `Node4`/`Node16` linear variants:
`bytes` is the strictly sorted key block padded with zeros, `values` the
matching value block padded with `none`s, keys are bytes. -/
def InvLin {T : Type} (size len : Nat) (bytes : List Nat) (values : List (Option T)) : Prop :=
  len ≤ size ∧
  ∃ keys vals,
    keys.length = len ∧ vals.length = len ∧
    bytes = keys ++ List.replicate (size - len) 0 ∧
    values = vals ++ List.replicate (size - len) none ∧
    keys.Pairwise (· < ·) ∧ (∀ k ∈ keys, k < 256) ∧ (∀ v ∈ vals, v.isSome = true)

/-- Representation invariant for `Node48`: `positions` maps each present byte
injectively onto `{0, …, len-1}`, whose `values` slots are filled; all other
value slots are empty. -/
def Inv48 {T : Type} (len : Nat) (positions : List Nat) (values : List (Option T)) : Prop :=
  positions.length = 256 ∧ values.length = 48 ∧ len ≤ 48 ∧
  (∀ b, b < 256 → positions.getD b 255 < 48 → positions.getD b 255 < len) ∧
  (∀ b1 b2, b1 < 256 → b2 < 256 → positions.getD b1 255 < 48 →
    positions.getD b1 255 = positions.getD b2 255 → b1 = b2) ∧
  (∀ j, j < len → ∃ b, b < 256 ∧ positions.getD b 255 = j) ∧
  (∀ j, j < len → (values.getD j none).isSome = true) ∧
  (∀ j, len ≤ j → values.getD j none = none)

/-- The `ByteMap` representation invariant, by variant. -/
def BMInv {T : Type} : ByteMap T → Prop
  | .N4 len bytes values => InvLin 4 len bytes values
  | .N16 len bytes values => InvLin 16 len bytes values
  | .N48 len positions values => Inv48 len positions values
  | .N256 _ values => values.length = 256


/-! ### Part 2: theorems -/

theorem popCountFuel_congr : ∀ (f g x : Nat), x ≤ f → x ≤ g →
    popCountFuel f x = popCountFuel g x := by
  intro f
  induction f with
  | zero =>
    intro g x hf _
    interval_cases x
    cases g <;> simp [popCountFuel]
  | succ f ih =>
    intro g x hf hg
    rcases eq_or_ne x 0 with rfl | hx
    · cases g <;> simp [popCountFuel]
    · have hg1 : 1 ≤ g := by omega
      obtain ⟨g', rfl⟩ : ∃ g', g = g' + 1 := ⟨g - 1, by omega⟩
      show (if x = 0 then 0 else x % 2 + popCountFuel f (x / 2))
        = (if x = 0 then 0 else x % 2 + popCountFuel g' (x / 2))
      rw [if_neg hx, if_neg hx, ih g' (x / 2) (by omega) (by omega)]

theorem popCount_zero : popCount 0 = 0 := by simp [popCount, popCountFuel]

theorem popCount_eq' (x : Nat) : popCount x = x % 2 + popCount (x / 2) := by
  rcases eq_or_ne x 0 with rfl | hx
  · simp [popCount, popCountFuel]
  · unfold popCount
    obtain ⟨x', rfl⟩ : ∃ x', x = x' + 1 := ⟨x - 1, by omega⟩
    show (if x' + 1 = 0 then 0 else (x' + 1) % 2 + popCountFuel x' ((x' + 1) / 2))
      = (x' + 1) % 2 + popCountFuel ((x' + 1) / 2) ((x' + 1) / 2)
    rw [if_neg hx, popCountFuel_congr x' ((x' + 1) / 2) ((x' + 1) / 2) (by omega) (by omega)]

/-- Popcount splits at any power-of-two boundary. -/
theorem popCount_split (k : Nat) :
    ∀ m, popCount m = popCount (m % 2 ^ k) + popCount (m / 2 ^ k) := by
  induction k with
  | zero => intro m; simp [popCount_zero, Nat.mod_one]
  | succ k ih =>
    intro m
    have h1 : m % 2 ^ (k + 1) % 2 = m % 2 := by
      have : (2 : Nat) ∣ 2 ^ (k + 1) := dvd_pow_self 2 (Nat.succ_ne_zero k)
      exact Nat.mod_mod_of_dvd m this
    have h2 : m % 2 ^ (k + 1) / 2 = m / 2 % 2 ^ k := by
      rw [Nat.pow_succ, Nat.mul_comm, Nat.mod_mul_right_div_self]
    have h3 : m / 2 ^ (k + 1) = m / 2 / 2 ^ k := by
      rw [Nat.pow_succ, Nat.mul_comm, Nat.div_div_eq_div_mul]
    calc popCount m = m % 2 + popCount (m / 2) := popCount_eq' m
      _ = m % 2 + (popCount (m / 2 % 2 ^ k) + popCount (m / 2 / 2 ^ k)) := by rw [ih]
      _ = (m % 2 + popCount (m / 2 % 2 ^ k)) + popCount (m / 2 / 2 ^ k) := by omega
      _ = popCount (m % 2 ^ (k + 1)) + popCount (m / 2 ^ (k + 1)) := by
          rw [popCount_eq' (m % 2 ^ (k + 1)), h1, h2, h3]

theorem popCount_mul_pow_add (k x b : Nat) (hb : b < 2 ^ k) :
    popCount (2 ^ k * x + b) = popCount x + popCount b := by
  have hmod : (2 ^ k * x + b) % 2 ^ k = b := by
    simp [Nat.mul_add_mod, Nat.mod_eq_of_lt hb]
  have hdiv : (2 ^ k * x + b) / 2 ^ k = x := by
    rw [Nat.add_comm, Nat.add_mul_div_left _ _ (Nat.two_pow_pos k),
      Nat.div_eq_of_lt hb, Nat.zero_add]
  rw [popCount_split k, hmod, hdiv, Nat.add_comm]

theorem pack9_lt (l : List Nat) (hl : ∀ a ∈ l, a < 2 ^ 9) :
    pack9 l < 2 ^ (9 * l.length) := by
  induction l with
  | nil => simp [pack9]
  | cons a l ih =>
    have ha : a < 2 ^ 9 := hl a (List.mem_cons_self a l)
    have hrec := ih (fun b hb => hl b (List.mem_cons_of_mem a hb))
    have h9 : 9 * (a :: l).length = 9 * l.length + 9 := by
      simp [List.length_cons]; ring
    have key : a + 2 ^ 9 * pack9 l < 2 ^ 9 * 2 ^ (9 * l.length) := by
      have h1 : 1 + pack9 l ≤ 2 ^ (9 * l.length) := by omega
      calc a + 2 ^ 9 * pack9 l < 2 ^ 9 * (1 + pack9 l) := by
            have : (2:Nat) ^ 9 * (1 + pack9 l) = 2 ^ 9 + 2 ^ 9 * pack9 l := by ring
            omega
        _ ≤ 2 ^ 9 * 2 ^ (9 * l.length) := Nat.mul_le_mul_left _ h1
    have : pack9 (a :: l) = a + 2 ^ 9 * pack9 l := rfl
    rw [this, h9, Nat.pow_add, Nat.mul_comm (2 ^ (9 * l.length)) (2 ^ 9)]
    exact key

theorem testBit_pack9 (l : List Nat) (hl : ∀ a ∈ l, a < 2 ^ 9) (n : Nat) :
    Nat.testBit (pack9 l) n = Nat.testBit (l.getD (n / 9) 0) (n % 9) := by
  induction l generalizing n with
  | nil => simp [pack9]
  | cons a l ih =>
    have ha : a < 2 ^ 9 := hl a (List.mem_cons_self a l)
    have hrec := ih (fun b hb => hl b (List.mem_cons_of_mem a hb))
    have hpk : pack9 (a :: l) = 2 ^ 9 * pack9 l + a := by
      have : pack9 (a :: l) = a + 2 ^ 9 * pack9 l := rfl
      omega
    rw [hpk, Nat.testBit_mul_pow_two_add _ ha]
    by_cases h : n < 9
    · rw [if_pos h]
      have h1 : n / 9 = 0 := Nat.div_eq_of_lt h
      have h2 : n % 9 = n := Nat.mod_eq_of_lt h
      rw [h1, h2]; rfl
    · rw [if_neg h, hrec (n - 9)]
      have h1 : (n - 9) / 9 = n / 9 - 1 := by omega
      have h2 : (n - 9) % 9 = n % 9 := by omega
      obtain ⟨m, hm⟩ : ∃ m, n / 9 = m + 1 := ⟨n / 9 - 1, by omega⟩
      rw [h1, h2, hm]
      simp

theorem getD_zipWith (f : Nat → Nat → Nat) (hf0 : f 0 0 = 0) (l m : List Nat)
    (hlen : l.length = m.length) (k : Nat) :
    (List.zipWith f l m).getD k 0 = f (l.getD k 0) (m.getD k 0) := by
  induction l generalizing m k with
  | nil =>
    cases m with
    | nil => simp [hf0]
    | cons b m => simp at hlen
  | cons a l ih =>
    cases m with
    | nil => simp at hlen
    | cons b m =>
      cases k with
      | zero => simp
      | succ k =>
        simp only [List.zipWith_cons_cons, List.getD_cons_succ]
        exact ih m (by simpa using hlen) k

theorem zipWith_bound (f : Nat → Nat → Nat)
    (hf : ∀ a b, a < 2 ^ 9 → b < 2 ^ 9 → f a b < 2 ^ 9) :
    ∀ (l m : List Nat), (∀ a ∈ l, a < 2 ^ 9) → (∀ b ∈ m, b < 2 ^ 9) →
      ∀ c ∈ List.zipWith f l m, c < 2 ^ 9 := by
  intro l
  induction l with
  | nil => intro m _ _ c hc; simp at hc
  | cons a l ih =>
    intro m hl hm c hc
    cases m with
    | nil => simp at hc
    | cons b m =>
      simp only [List.zipWith_cons_cons, List.mem_cons] at hc
      rcases hc with rfl | hc
      · exact hf a b (hl a (List.mem_cons_self a l)) (hm b (List.mem_cons_self b m))
      · exact ih m (fun x hx => hl x (List.mem_cons_of_mem a hx))
          (fun x hx => hm x (List.mem_cons_of_mem b hx)) c hc

theorem pack9_lor (l m : List Nat) (hl : ∀ a ∈ l, a < 2 ^ 9)
    (hm : ∀ b ∈ m, b < 2 ^ 9) (hlen : l.length = m.length) :
    pack9 l ||| pack9 m = pack9 (List.zipWith (fun a b => a ||| b) l m) := by
  have hz := zipWith_bound (fun a b => a ||| b)
    (fun a b ha hb => Nat.or_lt_two_pow ha hb) l m hl hm
  apply Nat.eq_of_testBit_eq
  intro n
  rw [Nat.testBit_or, testBit_pack9 l hl, testBit_pack9 m hm, testBit_pack9 _ hz,
    getD_zipWith _ (by simp) l m hlen, Nat.testBit_or]

theorem pack9_land (l m : List Nat) (hl : ∀ a ∈ l, a < 2 ^ 9)
    (hm : ∀ b ∈ m, b < 2 ^ 9) (hlen : l.length = m.length) :
    pack9 l &&& pack9 m = pack9 (List.zipWith (fun a b => a &&& b) l m) := by
  have hz := zipWith_bound (fun a b => a &&& b)
    (fun a b _ hb => Nat.and_lt_two_pow a hb) l m hl hm
  apply Nat.eq_of_testBit_eq
  intro n
  rw [Nat.testBit_and, testBit_pack9 l hl, testBit_pack9 m hm, testBit_pack9 _ hz,
    getD_zipWith _ (by simp) l m hlen, Nat.testBit_and]

theorem pack9_xor (l m : List Nat) (hl : ∀ a ∈ l, a < 2 ^ 9)
    (hm : ∀ b ∈ m, b < 2 ^ 9) (hlen : l.length = m.length) :
    pack9 l ^^^ pack9 m = pack9 (List.zipWith (fun a b => a ^^^ b) l m) := by
  have hz := zipWith_bound (fun a b => a ^^^ b)
    (fun a b ha hb => Nat.xor_lt_two_pow ha hb) l m hl hm
  apply Nat.eq_of_testBit_eq
  intro n
  rw [Nat.testBit_xor, testBit_pack9 l hl, testBit_pack9 m hm, testBit_pack9 _ hz,
    getD_zipWith _ (by simp) l m hlen, Nat.testBit_xor]

theorem pack9_mono (l m : List Nat) (hlen : l.length = m.length)
    (h : ∀ k, k < l.length → m.getD k 0 ≤ l.getD k 0) : pack9 m ≤ pack9 l := by
  induction l generalizing m with
  | nil => cases m with
    | nil => simp
    | cons b m => simp at hlen
  | cons a l ih =>
    cases m with
    | nil => simp at hlen
    | cons b m =>
      have h0 : b ≤ a := h 0 (by simp)
      have htail : pack9 m ≤ pack9 l := by
        apply ih m (by simpa using hlen)
        intro k hk
        have := h (k + 1) (by simpa using Nat.succ_lt_succ hk)
        simpa using this
      show b + 2 ^ 9 * pack9 m ≤ a + 2 ^ 9 * pack9 l
      have := Nat.mul_le_mul_left (2 ^ 9) htail
      omega

theorem pack9_sub (l m : List Nat) (hlen : l.length = m.length)
    (h : ∀ k, k < l.length → m.getD k 0 ≤ l.getD k 0) :
    pack9 l - pack9 m = pack9 (List.zipWith (fun a b => a - b) l m) := by
  induction l generalizing m with
  | nil => cases m with
    | nil => simp [pack9]
    | cons b m => simp at hlen
  | cons a l ih =>
    cases m with
    | nil => simp at hlen
    | cons b m =>
      have h0 : b ≤ a := h 0 (by simp)
      have htail : pack9 m ≤ pack9 l := by
        apply pack9_mono l m (by simpa using hlen)
        intro k hk
        have := h (k + 1) (by simpa using Nat.succ_lt_succ hk)
        simpa using this
      have hrec : pack9 l - pack9 m = pack9 (List.zipWith (fun a b => a - b) l m) := by
        apply ih m (by simpa using hlen)
        intro k hk
        have := h (k + 1) (by simpa using Nat.succ_lt_succ hk)
        simpa using this
      show (a + 2 ^ 9 * pack9 l) - (b + 2 ^ 9 * pack9 m)
        = (a - b) + 2 ^ 9 * pack9 (List.zipWith (fun a b => a - b) l m)
      rw [← hrec, Nat.mul_sub]
      have := Nat.mul_le_mul_left (2 ^ 9) htail
      omega

theorem popCount_pack9 (l : List Nat) (hl : ∀ a ∈ l, a < 2 ^ 9) :
    popCount (pack9 l) = (l.map popCount).sum := by
  induction l with
  | nil => simp [pack9, popCount_zero]
  | cons a l ih =>
    have ha : a < 2 ^ 9 := hl a (List.mem_cons_self a l)
    have hrec := ih (fun b hb => hl b (List.mem_cons_of_mem a hb))
    have : pack9 (a :: l) = 2 ^ 9 * pack9 l + a := by
      show a + 2 ^ 9 * pack9 l = _; omega
    rw [this, popCount_mul_pow_add 9 _ a ha, hrec]
    simp [Nat.add_comm]

theorem sub64_eq (a b : Nat) (hba : b ≤ a) (ha : a < 2 ^ 64) :
    sub64 a b = a - b := by
  unfold sub64
  have hpow : (2:Nat) ^ 64 = 18446744073709551616 := by norm_num
  rw [hpow] at *
  have hb : b % 18446744073709551616 = b := Nat.mod_eq_of_lt (by omega)
  rw [hb]
  omega

theorem or_shl (X a k : Nat) (hX : X < 2 ^ k) : X ||| (a <<< k) = X + 2 ^ k * a := by
  rw [Nat.shiftLeft_eq, Nat.mul_comm a (2 ^ k), Nat.lor_comm,
    ← Nat.mul_add_lt_is_or hX, Nat.add_comm]

theorem land_mod_high (a w n : Nat) (ha : a < 2 ^ n) : a &&& w = a &&& (w % 2 ^ n) := by
  apply Nat.eq_of_testBit_eq
  intro i
  rw [Nat.testBit_and, Nat.testBit_and, Nat.testBit_mod_two_pow]
  by_cases h : i < n
  · simp [h]
  · have hai : a.testBit i = false := by
      apply Nat.testBit_lt_two_pow
      calc a < 2 ^ n := ha
        _ ≤ 2 ^ i := Nat.pow_le_pow_right (by norm_num) (by omega)
    simp [hai]

theorem xor_mod_two_pow (a b n : Nat) :
    (a ^^^ b) % 2 ^ n = (a % 2 ^ n) ^^^ (b % 2 ^ n) := by
  apply Nat.eq_of_testBit_eq
  intro i
  simp only [Nat.testBit_mod_two_pow, Nat.testBit_xor]
  by_cases h : i < n <;> simp [h]

theorem lor_mod_two_pow (a b n : Nat) :
    (a ||| b) % 2 ^ n = (a % 2 ^ n) ||| (b % 2 ^ n) := by
  apply Nat.eq_of_testBit_eq
  intro i
  simp only [Nat.testBit_mod_two_pow, Nat.testBit_or]
  by_cases h : i < n <;> simp [h]

theorem testBit8 (v : Nat) (hv : v < 512) : Nat.testBit v 8 = decide (256 ≤ v) := by
  rw [Nat.testBit_to_div_mod]
  exact decide_eq_decide.mpr (by omega)

theorem or256 (v : Nat) (hv : v < 512) : v ||| 256 = 256 + v % 256 := by
  apply Nat.eq_of_testBit_eq
  intro i
  have h256 : (256 : Nat) + v % 256 = 2 ^ 8 * 1 + v % 256 := by norm_num
  rw [Nat.testBit_or, h256, Nat.testBit_mul_pow_two_add 1 (by omega)]
  by_cases h1 : i < 8
  · have : Nat.testBit 256 i = false := by
      have : (256 : Nat) = 2 ^ 8 := by norm_num
      rw [this, Nat.testBit_two_pow]
      simp; omega
    rw [if_pos h1, this]
    have h28 : (256 : Nat) = 2 ^ 8 := by norm_num
    rw [h28, Nat.testBit_mod_two_pow]
    simp [h1]
  · by_cases h2 : i = 8
    · subst h2
      have : Nat.testBit 256 8 = true := by decide
      simp [this]
    · have hv8 : Nat.testBit v i = false := by
        apply Nat.testBit_lt_two_pow
        calc v < 512 := hv
          _ ≤ 2 ^ i := by
            calc (512 : Nat) = 2 ^ 9 := by norm_num
              _ ≤ 2 ^ i := Nat.pow_le_pow_right (by norm_num) (by omega)
      have h256b : Nat.testBit 256 i = false := by
        have : (256 : Nat) = 2 ^ 8 := by norm_num
        rw [this, Nat.testBit_two_pow]
        simp; omega
      have h1b : Nat.testBit 1 (i - 8) = false := by
        have : (1 : Nat) < 2 ^ (i - 8) := Nat.one_lt_two_pow (by omega)
        exact Nat.testBit_lt_two_pow this
      rw [if_neg h1, hv8, h256b, h1b]
      simp

theorem and_land255 (v : Nat) : v &&& 255 = v % 256 := by
  have h : (255 : Nat) = 2 ^ 8 - 1 := by norm_num
  have h2 : (256 : Nat) = 2 ^ 8 := by norm_num
  rw [h, h2, Nat.and_pow_two_sub_one_eq_mod]

theorem and_two_pow_ite (e k : Nat) :
    e &&& 2 ^ k = if e.testBit k then 2 ^ k else 0 := by
  rw [Nat.and_two_pow]
  cases h : e.testBit k <;> simp [h]

theorem u9x7_SHIFT_eq : u9x7.SHIFT = pack9 [1, 1, 1, 1, 1, 1, 1] := by decide

theorem u9x7_H_eq : u9x7.H = pack9 [256, 256, 256, 256, 256, 256, 256] := by decide

theorem u9x7_H_lt : u9x7.H < 2 ^ 63 := by decide

theorem not64_H_mod :
    not64 u9x7.H % 2 ^ 63 = pack9 [255, 255, 255, 255, 255, 255, 255] := by decide

theorem allones63 : 2 ^ 63 - 1 = pack9 [511, 511, 511, 511, 511, 511, 511] := by decide

theorem allones64_mod : (2 ^ 64 - 1) % 2 ^ 63 = 2 ^ 63 - 1 := by decide

theorem u9x7_new_eq (d : Fin 7 → Nat) (h : ∀ i, d i < 512) :
    u9x7.new d = pack9 [d 0, d 1, d 2, d 3, d 4, d 5, d 6] := by
  have h0 := h 0; have h1 := h 1; have h2 := h 2; have h3 := h 3
  have h4 := h 4; have h5 := h 5; have h6 := h 6
  unfold u9x7.new
  rw [or_shl (d 0) (d 1) 9 (by norm_num; omega)]
  rw [or_shl _ (d 2) 18 (by norm_num; omega)]
  rw [or_shl _ (d 3) 27 (by norm_num; omega)]
  rw [or_shl _ (d 4) 36 (by norm_num; omega)]
  rw [or_shl _ (d 5) 45 (by norm_num; omega)]
  rw [or_shl _ (d 6) 54 (by norm_num; omega)]
  simp only [pack9]
  norm_num
  ring

theorem pack9_div_mod : ∀ (k : Nat) (l : List Nat), (∀ a ∈ l, a < 2 ^ 9) →
    pack9 l / 2 ^ (9 * k) % 2 ^ 9 = l.getD k 0 := by
  intro k
  induction k with
  | zero =>
    intro l hl
    cases l with
    | nil => simp [pack9]
    | cons a m =>
      have ha := hl a (List.mem_cons_self a m)
      show (a + 2 ^ 9 * pack9 m) / 2 ^ (9 * 0) % 2 ^ 9 = a
      simp only [Nat.mul_zero, Nat.pow_zero, Nat.div_one]
      rw [Nat.add_mul_mod_self_left, Nat.mod_eq_of_lt ha]
  | succ k ih =>
    intro l hl
    cases l with
    | nil => simp [pack9]
    | cons a m =>
      have ha := hl a (List.mem_cons_self a m)
      have hm := fun b hb => hl b (List.mem_cons_of_mem a hb)
      have hdiv : pack9 (a :: m) / 2 ^ (9 * (k + 1)) = pack9 m / 2 ^ (9 * k) := by
        have e1 : 9 * (k + 1) = 9 + 9 * k := by ring
        rw [e1, Nat.pow_add, ← Nat.div_div_eq_div_mul]
        congr 1
        show (a + 2 ^ 9 * pack9 m) / 2 ^ 9 = pack9 m
        rw [Nat.add_mul_div_left _ _ (Nat.two_pow_pos 9), Nat.div_eq_of_lt ha, Nat.zero_add]
      rw [hdiv, ih m hm]
      simp

theorem u9x7_get_pack9 (l : List Nat) (hl : ∀ a ∈ l, a < 2 ^ 9) (k : Nat) :
    u9x7.get (pack9 l) k = l.getD k 0 := by
  unfold u9x7.get
  rw [Nat.shiftRight_eq_div_pow]
  have h511 : (511 : Nat) = 2 ^ 9 - 1 := by norm_num
  rw [h511, Nat.and_pow_two_sub_one_eq_mod]
  have hk : k * 9 = 9 * k := by ring
  rw [hk]
  exact pack9_div_mod k l hl

theorem rank_digit (v n : Nat) (hv : v < 512) (hn : n < 512) :
    popCount ((((256 + v % 256 - n % 256) ||| (v ^^^ n)) ^^^ (v ||| (511 ^^^ n))) &&& 256)
      = if v < n then 1 else 0 := by
  have key : ∀ e : Nat, e &&& 256 = if e.testBit 8 then 256 else 0 := by
    intro e
    have h2 : (2 : Nat) ^ 8 = 256 := by norm_num
    rw [← h2, and_two_pow_ite]
  have hs : 256 + v % 256 - n % 256 < 512 := by omega
  have e1 : Nat.testBit (256 + v % 256 - n % 256) 8 = decide (n % 256 ≤ v % 256) := by
    rw [testBit8 _ hs]
    exact decide_eq_decide.mpr (by omega)
  have e2 : Nat.testBit v 8 = decide (256 ≤ v) := testBit8 v hv
  have e3 : Nat.testBit n 8 = decide (256 ≤ n) := testBit8 n hn
  have e4 : Nat.testBit 511 8 = true := by decide
  rw [key]
  simp only [Nat.testBit_xor, Nat.testBit_or, e1, e2, e3, e4]
  have p256 : popCount 256 = 1 := by decide
  rcases Nat.lt_or_ge v n with hvn | hvn <;>
    by_cases hq1 : n % 256 ≤ v % 256 <;>
    by_cases hq2 : 256 ≤ v <;>
    by_cases hq3 : 256 ≤ n <;>
    simp [hq1, hq2, hq3, hvn, Nat.not_lt_of_le, p256, popCount_zero] <;>
    omega

theorem pack9_lt_63 (l : List Nat) (hl : ∀ a ∈ l, a < 2 ^ 9) (hlen : l.length = 7) :
    pack9 l < 2 ^ 63 := by
  have h := pack9_lt l hl
  have e : 9 * l.length = 63 := by rw [hlen]
  rw [e] at h
  exact h

theorem xor_lt_512 {a b : Nat} (ha : a < 512) (hb : b < 512) : a ^^^ b < 512 := by
  have ha9 : a < 2 ^ 9 := by norm_num; omega
  have hb9 : b < 2 ^ 9 := by norm_num; omega
  have h := Nat.xor_lt_two_pow ha9 hb9
  norm_num at h
  exact h

theorem land_mod_left (a w n : Nat) (ha : a < 2 ^ n) :
    w &&& a = (w % 2 ^ n) &&& a := by
  rw [Nat.land_comm, land_mod_high a w n ha, Nat.land_comm]

theorem mem7_bound {a0 a1 a2 a3 a4 a5 a6 : Nat}
    (h0 : a0 < 512) (h1 : a1 < 512) (h2 : a2 < 512) (h3 : a3 < 512)
    (h4 : a4 < 512) (h5 : a5 < 512) (h6 : a6 < 512) :
    ∀ a ∈ [a0, a1, a2, a3, a4, a5, a6], a < 2 ^ 9 := by
  intro a ha
  simp only [List.mem_cons, List.not_mem_nil, or_false] at ha
  norm_num
  rcases ha with rfl | rfl | rfl | rfl | rfl | rfl | rfl <;> omega

/-- C9: over a `u9x7` packed from seven field values, each below 512 and
arranged in non-decreasing order, and for every needle `≤ 512`, `rank`
returns exactly the number of packed fields strictly less than the needle;
the broadword formula computes this count (with the early return `7` for
needles `≥ 512`). -/
theorem u9x7_rank_counts (d : Fin 7 → Nat) (hlt : ∀ i, d i < 512)
    (hmono : ∀ i j : Fin 7, i ≤ j → d i ≤ d j) (n : Nat) (hn : n ≤ 512) :
    u9x7.rank (u9x7.new d) n = (List.ofFn d).countP (fun v => decide (v < n)) := by
  have hofn : List.ofFn d = [d 0, d 1, d 2, d 3, d 4, d 5, d 6] := rfl
  have h0 := hlt 0; have h1 := hlt 1; have h2 := hlt 2; have h3 := hlt 3
  have h4 := hlt 4; have h5 := hlt 5; have h6 := hlt 6
  rcases Nat.lt_or_ge n 512 with hn512 | hn512
  case inr =>
    have hn' : n = 512 := by omega
    subst hn'
    unfold u9x7.rank
    rw [if_pos (by norm_num), hofn]
    simp [List.countP_cons, h0, h1, h2, h3, h4, h5, h6]
  case inl =>
  have hneg : ¬ 512 ≤ n := by omega
  have hx : u9x7.new d = pack9 [d 0, d 1, d 2, d 3, d 4, d 5, d 6] :=
    u9x7_new_eq d hlt
  have hy : n * u9x7.SHIFT = pack9 [n, n, n, n, n, n, n] := by
    rw [u9x7_SHIFT_eq]
    simp only [pack9]
    ring
  have hD := mem7_bound h0 h1 h2 h3 h4 h5 h6
  have hN := mem7_bound hn512 hn512 hn512 hn512 hn512 hn512 hn512
  have c512 : (512 : Nat) > 256 := by norm_num
  have h256s := mem7_bound c512 c512 c512 c512 c512 c512 c512
  have c255 : (255 : Nat) < 512 := by norm_num
  have h255s := mem7_bound c255 c255 c255 c255 c255 c255 c255
  have c511 : (511 : Nat) < 512 := by norm_num
  have h511s := mem7_bound c511 c511 c511 c511 c511 c511 c511
  -- `x | H` has digits `256 + dᵢ % 256`
  have hA : u9x7.new d ||| u9x7.H
      = pack9 [256 + d 0 % 256, 256 + d 1 % 256, 256 + d 2 % 256, 256 + d 3 % 256,
          256 + d 4 % 256, 256 + d 5 % 256, 256 + d 6 % 256] := by
    rw [hx, u9x7_H_eq, pack9_lor _ _ hD h256s (by simp)]
    show pack9 [d 0 ||| 256, d 1 ||| 256, d 2 ||| 256, d 3 ||| 256, d 4 ||| 256,
      d 5 ||| 256, d 6 ||| 256] = _
    rw [or256 _ h0, or256 _ h1, or256 _ h2, or256 _ h3, or256 _ h4,
      or256 _ h5, or256 _ h6]
  -- `y & !H` has digits `n % 256`
  have hylt : pack9 [n, n, n, n, n, n, n] < 2 ^ 63 := pack9_lt_63 _ hN rfl
  have hB : n * u9x7.SHIFT &&& not64 u9x7.H
      = pack9 [n % 256, n % 256, n % 256, n % 256, n % 256, n % 256, n % 256] := by
    rw [hy, land_mod_high _ _ 63 hylt, not64_H_mod, pack9_land _ _ hN h255s (by simp)]
    show pack9 [n &&& 255, n &&& 255, n &&& 255, n &&& 255, n &&& 255,
      n &&& 255, n &&& 255] = _
    simp only [and_land255]
  -- the wrapping subtraction never underflows and acts digit-wise
  have hAbound := mem7_bound (by omega : 256 + d 0 % 256 < 512)
    (by omega : 256 + d 1 % 256 < 512) (by omega : 256 + d 2 % 256 < 512)
    (by omega : 256 + d 3 % 256 < 512) (by omega : 256 + d 4 % 256 < 512)
    (by omega : 256 + d 5 % 256 < 512) (by omega : 256 + d 6 % 256 < 512)
  have hsub : sub64 (u9x7.new d ||| u9x7.H) (n * u9x7.SHIFT &&& not64 u9x7.H)
      = pack9 [256 + d 0 % 256 - n % 256, 256 + d 1 % 256 - n % 256,
          256 + d 2 % 256 - n % 256, 256 + d 3 % 256 - n % 256,
          256 + d 4 % 256 - n % 256, 256 + d 5 % 256 - n % 256,
          256 + d 6 % 256 - n % 256] := by
    rw [hA, hB]
    have hle : pack9 [n % 256, n % 256, n % 256, n % 256, n % 256, n % 256, n % 256]
        ≤ pack9 [256 + d 0 % 256, 256 + d 1 % 256, 256 + d 2 % 256, 256 + d 3 % 256,
            256 + d 4 % 256, 256 + d 5 % 256, 256 + d 6 % 256] := by
      apply pack9_mono _ _ (by simp)
      intro k hk
      simp only [List.length_cons, List.length_nil] at hk
      interval_cases k <;> simp <;> omega
    have hlt64 : pack9 [256 + d 0 % 256, 256 + d 1 % 256, 256 + d 2 % 256,
        256 + d 3 % 256, 256 + d 4 % 256, 256 + d 5 % 256, 256 + d 6 % 256] < 2 ^ 64 := by
      have h := pack9_lt_63 _ hAbound rfl
      have h63 : (2:Nat) ^ 63 < 2 ^ 64 := by norm_num
      omega
    rw [sub64_eq _ _ hle hlt64, pack9_sub _ _ (by simp)]
    · rfl
    · intro k hk
      simp only [List.length_cons, List.length_nil] at hk
      interval_cases k <;> simp <;> omega
  -- `x ^ y` is digit-wise xor
  have hxor : u9x7.new d ^^^ n * u9x7.SHIFT
      = pack9 [d 0 ^^^ n, d 1 ^^^ n, d 2 ^^^ n, d 3 ^^^ n, d 4 ^^^ n,
          d 5 ^^^ n, d 6 ^^^ n] := by
    rw [hx, hy, pack9_xor _ _ hD hN (by simp)]
    rfl
  -- `x | !y` reduced modulo `2 ^ 63` is digit-wise `dᵢ | (511 ^ n)`
  have hxlt : pack9 [d 0, d 1, d 2, d 3, d 4, d 5, d 6] < 2 ^ 63 :=
    pack9_lt_63 _ hD rfl
  have hnoty : not64 (n * u9x7.SHIFT) % 2 ^ 63
      = pack9 [511 ^^^ n, 511 ^^^ n, 511 ^^^ n, 511 ^^^ n, 511 ^^^ n,
          511 ^^^ n, 511 ^^^ n] := by
    unfold not64
    rw [hy, xor_mod_two_pow, allones64_mod, Nat.mod_eq_of_lt hylt, allones63,
      pack9_xor _ _ h511s hN (by simp)]
    rfl
  have ht7 : (u9x7.new d ||| not64 (n * u9x7.SHIFT)) % 2 ^ 63
      = pack9 [d 0 ||| (511 ^^^ n), d 1 ||| (511 ^^^ n), d 2 ||| (511 ^^^ n),
          d 3 ||| (511 ^^^ n), d 4 ||| (511 ^^^ n), d 5 ||| (511 ^^^ n),
          d 6 ||| (511 ^^^ n)] := by
    have hxorb : ∀ i : Fin 7, (511 ^^^ n) < 512 := by
      intro _
      have : (511 : Nat) < 2 ^ 9 := by norm_num
      have hn9 : n < 2 ^ 9 := by norm_num; omega
      have := Nat.xor_lt_two_pow this hn9
      norm_num at this ⊢
      omega
    rw [lor_mod_two_pow, hnoty, hx, Nat.mod_eq_of_lt hxlt,
      pack9_lor _ _ hD (mem7_bound (hxorb 0) (hxorb 0) (hxorb 0) (hxorb 0)
        (hxorb 0) (hxorb 0) (hxorb 0)) (by simp)]
    rfl
  -- assemble the masked word digit-by-digit
  have hxorn : ∀ i : Fin 7, d i ^^^ n < 512 := by
    intro i
    have hd9 : d i < 2 ^ 9 := by norm_num; exact hlt i
    have hn9 : n < 2 ^ 9 := by norm_num; omega
    have := Nat.xor_lt_two_pow hd9 hn9
    norm_num at this ⊢
    omega
  have ht5d : ∀ i : Fin 7, (256 + d i % 256 - n % 256) ||| (d i ^^^ n) < 512 := by
    intro i
    have hl : 256 + d i % 256 - n % 256 < 2 ^ 9 := by norm_num; omega
    have hr : d i ^^^ n < 2 ^ 9 := by norm_num; exact hxorn i
    have := Nat.or_lt_two_pow hl hr
    norm_num at this ⊢
    omega
  have ht5 : sub64 (u9x7.new d ||| u9x7.H) (n * u9x7.SHIFT &&& not64 u9x7.H)
      ||| (u9x7.new d ^^^ n * u9x7.SHIFT)
      = pack9 [(256 + d 0 % 256 - n % 256) ||| (d 0 ^^^ n),
          (256 + d 1 % 256 - n % 256) ||| (d 1 ^^^ n),
          (256 + d 2 % 256 - n % 256) ||| (d 2 ^^^ n),
          (256 + d 3 % 256 - n % 256) ||| (d 3 ^^^ n),
          (256 + d 4 % 256 - n % 256) ||| (d 4 ^^^ n),
          (256 + d 5 % 256 - n % 256) ||| (d 5 ^^^ n),
          (256 + d 6 % 256 - n % 256) ||| (d 6 ^^^ n)] := by
    rw [hsub, hxor,
      pack9_lor _ _
        (mem7_bound (by omega) (by omega) (by omega) (by omega) (by omega)
          (by omega) (by omega))
        (mem7_bound (hxorn 0) (hxorn 1) (hxorn 2) (hxorn 3) (hxorn 4)
          (hxorn 5) (hxorn 6)) (by simp)]
    rfl
  have ht5lt : pack9 [(256 + d 0 % 256 - n % 256) ||| (d 0 ^^^ n),
      (256 + d 1 % 256 - n % 256) ||| (d 1 ^^^ n),
      (256 + d 2 % 256 - n % 256) ||| (d 2 ^^^ n),
      (256 + d 3 % 256 - n % 256) ||| (d 3 ^^^ n),
      (256 + d 4 % 256 - n % 256) ||| (d 4 ^^^ n),
      (256 + d 5 % 256 - n % 256) ||| (d 5 ^^^ n),
      (256 + d 6 % 256 - n % 256) ||| (d 6 ^^^ n)] < 2 ^ 63 := by
    exact pack9_lt_63 _ (mem7_bound (ht5d 0) (ht5d 1) (ht5d 2) (ht5d 3) (ht5d 4)
      (ht5d 5) (ht5d 6)) rfl
  have ht7d : ∀ i : Fin 7, d i ||| (511 ^^^ n) < 512 := by
    intro i
    have hl : d i < 2 ^ 9 := by norm_num; exact hlt i
    have hr : 511 ^^^ n < 2 ^ 9 := by
      have h511 : (511 : Nat) < 2 ^ 9 := by norm_num
      have hn9 : n < 2 ^ 9 := by norm_num; omega
      exact Nat.xor_lt_two_pow h511 hn9
    have := Nat.or_lt_two_pow hl hr
    norm_num at this ⊢
    omega
  have hmask : ((sub64 (u9x7.new d ||| u9x7.H) (n * u9x7.SHIFT &&& not64 u9x7.H)
      ||| (u9x7.new d ^^^ n * u9x7.SHIFT)) ^^^ (u9x7.new d ||| not64 (n * u9x7.SHIFT)))
      &&& u9x7.H
      = pack9 [(((256 + d 0 % 256 - n % 256) ||| (d 0 ^^^ n)) ^^^ (d 0 ||| (511 ^^^ n))) &&& 256,
          (((256 + d 1 % 256 - n % 256) ||| (d 1 ^^^ n)) ^^^ (d 1 ||| (511 ^^^ n))) &&& 256,
          (((256 + d 2 % 256 - n % 256) ||| (d 2 ^^^ n)) ^^^ (d 2 ||| (511 ^^^ n))) &&& 256,
          (((256 + d 3 % 256 - n % 256) ||| (d 3 ^^^ n)) ^^^ (d 3 ||| (511 ^^^ n))) &&& 256,
          (((256 + d 4 % 256 - n % 256) ||| (d 4 ^^^ n)) ^^^ (d 4 ||| (511 ^^^ n))) &&& 256,
          (((256 + d 5 % 256 - n % 256) ||| (d 5 ^^^ n)) ^^^ (d 5 ||| (511 ^^^ n))) &&& 256,
          (((256 + d 6 % 256 - n % 256) ||| (d 6 ^^^ n)) ^^^ (d 6 ||| (511 ^^^ n))) &&& 256] := by
    rw [ht5, land_mod_left _ _ 63 u9x7_H_lt, xor_mod_two_pow,
      Nat.mod_eq_of_lt ht5lt, ht7, u9x7_H_eq]
    rw [pack9_xor _ _
      (mem7_bound (ht5d 0) (ht5d 1) (ht5d 2) (ht5d 3) (ht5d 4) (ht5d 5) (ht5d 6))
      (mem7_bound (ht7d 0) (ht7d 1) (ht7d 2) (ht7d 3) (ht7d 4) (ht7d 5) (ht7d 6))
      (by simp)]
    simp only [List.zipWith_cons_cons, List.zipWith_nil_left]
    rw [pack9_land _ _
      (mem7_bound
        (xor_lt_512 (ht5d 0) (ht7d 0)) (xor_lt_512 (ht5d 1) (ht7d 1))
        (xor_lt_512 (ht5d 2) (ht7d 2)) (xor_lt_512 (ht5d 3) (ht7d 3))
        (xor_lt_512 (ht5d 4) (ht7d 4)) (xor_lt_512 (ht5d 5) (ht7d 5))
        (xor_lt_512 (ht5d 6) (ht7d 6)))
      h256s (by simp)]
    rfl
  have hbody : u9x7.rank (u9x7.new d) n
      = popCount (((sub64 (u9x7.new d ||| u9x7.H) (n * u9x7.SHIFT &&& not64 u9x7.H)
          ||| (u9x7.new d ^^^ n * u9x7.SHIFT)) ^^^ (u9x7.new d ||| not64 (n * u9x7.SHIFT)))
          &&& u9x7.H) := by
    unfold u9x7.rank
    rw [if_neg hneg]
  have hdig : ∀ i : Fin 7,
      popCount ((((256 + d i % 256 - n % 256) ||| (d i ^^^ n)) ^^^ (d i ||| (511 ^^^ n))) &&& 256)
        = if d i < n then 1 else 0 := fun i => rank_digit (d i) n (hlt i) hn512
  have hmaskd : ∀ i : Fin 7,
      (((256 + d i % 256 - n % 256) ||| (d i ^^^ n)) ^^^ (d i ||| (511 ^^^ n))) &&& 256 < 2 ^ 9 := by
    intro i
    have := Nat.and_le_right
      (n := ((256 + d i % 256 - n % 256) ||| (d i ^^^ n)) ^^^ (d i ||| (511 ^^^ n)))
      (m := 256)
    norm_num
    omega
  rw [hbody, hmask,
    popCount_pack9 _ (by
      intro a ha
      simp only [List.mem_cons, List.not_mem_nil, or_false] at ha
      rcases ha with rfl | rfl | rfl | rfl | rfl | rfl | rfl
      · exact hmaskd 0
      · exact hmaskd 1
      · exact hmaskd 2
      · exact hmaskd 3
      · exact hmaskd 4
      · exact hmaskd 5
      · exact hmaskd 6), hofn]
  simp only [List.map_cons, List.map_nil, List.sum_cons, List.sum_nil,
    List.countP_cons, List.countP_nil,
    hdig 0, hdig 1, hdig 2, hdig 3, hdig 4, hdig 5, hdig 6,
    decide_eq_true_eq]
  ring

/-- Witness for C9 at the field values from the repository's own unit test. -/
theorem u9x7_rank_counts_witness :
    u9x7.rank (u9x7.new ![10, 40, 80, 255, 300, 300, 400]) 301 = 6 :=
  (u9x7_rank_counts ![10, 40, 80, 255, 300, 300, 400] (by decide) (by decide) 301
    (by decide)).trans (by decide)

theorem fromIter_len_ge (l : List Bool) : 1 ≤ (SBitVec.fromIter l).len := by
  unfold SBitVec.fromIter
  dsimp only
  omega

/-- C10: `SBitVec::from_iter` applied to an empty iterator of bits produces a
vector reporting `len() = 1` with `blocks = [0]` rather than an empty vector
(the constructor unconditionally increments the length after consuming the
iterator), so no `SBitVec` with `len() = 0` can be obtained from the public
constructor. -/
theorem sbitvec_fromIter_empty_len_one :
    (SBitVec.fromIter []).len = 1 ∧ (SBitVec.fromIter []).blocks = [0]
      ∧ ∀ l : List Bool, 1 ≤ (SBitVec.fromIter l).len :=
  ⟨by decide, by decide, fromIter_len_ge⟩

/-- C3 (code bug): `SloudsTrie::from_iter` applied to the single pair
`("", 0)` (the empty byte string mapped to 0) does not build the trie
`trie = [0]`, `has_value = [1]`, `bytes = []`, `values = [0]` claimed by the
spec: `BadTrie::insert` iterates `0..(key.len() - 1)`, which underflows on the
empty key (and `key.last().unwrap()` panics), so construction panics; the
embedded constructor returns `none` at exactly this input. -/
theorem slouds_fromIter_empty_key_panics :
    SloudsTrie.fromIterE [(([] : List Nat), (0 : Nat))] = none := rfl

theorem popCount_le_of_lt_two_pow : ∀ (k w : Nat), w < 2 ^ k → popCount w ≤ k := by
  intro k
  induction k with
  | zero => intro w hw; interval_cases w; simp [popCount_zero]
  | succ k ih =>
    intro w hw
    rw [popCount_eq' w]
    have : w / 2 < 2 ^ k := by
      have h2 : (2:Nat) ^ (k + 1) = 2 ^ k * 2 := by ring
      omega
    have := ih (w / 2) this
    omega

theorem pack9_div_pow : ∀ (k : Nat) (l : List Nat), (∀ a ∈ l, a < 2 ^ 9) →
    pack9 l / 2 ^ (9 * k) = pack9 (l.drop k) := by
  intro k
  induction k with
  | zero => intro l _; simp
  | succ k ih =>
    intro l hl
    cases l with
    | nil => simp [pack9]
    | cons a m =>
      have ha := hl a (List.mem_cons_self a m)
      have hm := fun b hb => hl b (List.mem_cons_of_mem a hb)
      have e1 : 9 * (k + 1) = 9 + 9 * k := by ring
      rw [e1, Nat.pow_add, ← Nat.div_div_eq_div_mul]
      have e2 : pack9 (a :: m) / 2 ^ 9 = pack9 m := by
        show (a + 2 ^ 9 * pack9 m) / 2 ^ 9 = pack9 m
        rw [Nat.add_mul_div_left _ _ (Nat.two_pow_pos 9), Nat.div_eq_of_lt ha,
          Nat.zero_add]
      rw [e2, ih m hm]
      rfl

theorem pack9_mod_pow : ∀ (k : Nat) (l : List Nat), (∀ a ∈ l, a < 2 ^ 9) →
    pack9 l % 2 ^ (9 * k) = pack9 (l.take k) := by
  intro k
  induction k with
  | zero => intro l _; simp [pack9, Nat.mod_one]
  | succ k ih =>
    intro l hl
    cases l with
    | nil => simp [pack9]
    | cons a m =>
      have ha := hl a (List.mem_cons_self a m)
      have hm := fun b hb => hl b (List.mem_cons_of_mem a hb)
      have e1 : 9 * (k + 1) = 9 + 9 * k := by ring
      have split : a + 2 ^ 9 * pack9 m
          = (a + 2 ^ 9 * (pack9 m % 2 ^ (9 * k)))
            + (2 ^ 9 * 2 ^ (9 * k)) * (pack9 m / 2 ^ (9 * k)) := by
        conv_lhs => rw [← Nat.mod_add_div (pack9 m) (2 ^ (9 * k))]
        ring
      have hlt : a + 2 ^ 9 * (pack9 m % 2 ^ (9 * k)) < 2 ^ 9 * 2 ^ (9 * k) := by
        have h1 : pack9 m % 2 ^ (9 * k) < 2 ^ (9 * k) :=
          Nat.mod_lt _ (Nat.two_pow_pos _)
        have h2 : 2 ^ 9 * (pack9 m % 2 ^ (9 * k)) ≤ 2 ^ 9 * (2 ^ (9 * k) - 1) :=
          Nat.mul_le_mul_left _ (by omega)
        have h3 : (2:Nat) ^ 9 * (2 ^ (9 * k) - 1) = 2 ^ 9 * 2 ^ (9 * k) - 2 ^ 9 := by
          rw [Nat.mul_sub, Nat.mul_one]
        have h4 : (2:Nat) ^ 9 ≤ 2 ^ 9 * 2 ^ (9 * k) :=
          Nat.le_mul_of_pos_right _ (Nat.two_pow_pos _)
        omega
      show (a + 2 ^ 9 * pack9 m) % 2 ^ (9 * (k + 1)) = pack9 ((a :: m).take (k + 1))
      rw [e1, Nat.pow_add, split, Nat.add_mul_mod_self_left, Nat.mod_eq_of_lt hlt]
      have : pack9 ((a :: m).take (k + 1)) = a + 2 ^ 9 * pack9 (m.take k) := rfl
      rw [this, ih m hm]

theorem wordsOnesPre_le (ws : List Nat) (hw : ∀ w ∈ ws, w < 2 ^ 64) :
    ∀ k, wordsOnesPre ws k ≤ 64 * k := by
  induction ws with
  | nil => intro k; simp [wordsOnesPre]
  | cons a l ih =>
    intro k
    cases k with
    | zero => simp [wordsOnesPre]
    | succ k =>
      have ha := popCount_le_of_lt_two_pow 64 a (hw a (List.mem_cons_self a l))
      have hl := ih (fun w hwm => hw w (List.mem_cons_of_mem a hwm)) k
      have e : wordsOnesPre (a :: l) (k + 1) = popCount a + wordsOnesPre l k := by
        simp [wordsOnesPre, List.take_succ_cons]
      omega

theorem pack9_K27 : (1 <<< 27) ||| (1 <<< 36) ||| (1 <<< 45) ||| (1 <<< 54)
    = pack9 [0, 0, 0, 1, 1, 1, 1] := by decide

theorem pack9_M36 : (1 <<< 36) ||| (1 <<< 45) ||| (1 <<< 54)
    = pack9 [0, 0, 0, 0, 1, 1, 1] := by decide

theorem pack9_SH : 1 ||| (1 <<< 9) ||| (1 <<< 18) ||| (1 <<< 27) ||| (1 <<< 36)
    ||| (1 <<< 45) ||| (1 <<< 54) = pack9 [1, 1, 1, 1, 1, 1, 1] := by decide

set_option maxHeartbeats 1600000 in
/-- C5: splitting a full, consistent `Bits512` leaves the original block with
`len = 256` holding exactly the lower 256 bits, returns a block with
`len = 256` holding the former upper 256 bits, preserves the total popcount
across the pair, and afterwards `rank0`/`rank1`/`select0`/`select1` on each
half agree with the same queries on the block recomputed from that half's
bits alone (both halves are in fact bit-for-bit the recomputed blocks). -/
theorem bits512_split_correct (b : Bits512) (hlen8 : b.bits.length = 8)
    (hw : ∀ w ∈ b.bits, w < 2 ^ 64) (hfull : b.len = 512)
    (hcons : b.n_ones = u9x7.new (fun i => wordsOnesPre b.bits (i.val + 1))) :
    (b.split).1.len = 256 ∧ (b.split).2.len = 256 ∧
    (∀ i, i < 256 → (b.split).1.get_bit i = b.get_bit i) ∧
    (∀ i, i < 256 → (b.split).2.get_bit i = b.get_bit (256 + i)) ∧
    (b.split).1.num_ones + (b.split).2.num_ones = b.num_ones ∧
    (b.split).1 = Bits512.recompute (b.split).1.bits 256 ∧
    (b.split).2 = Bits512.recompute (b.split).2.bits 256 ∧
    (∀ i, (b.split).1.rank0 i = (Bits512.recompute (b.split).1.bits 256).rank0 i ∧
      (b.split).1.rank1 i = (Bits512.recompute (b.split).1.bits 256).rank1 i ∧
      (b.split).1.select0 i = (Bits512.recompute (b.split).1.bits 256).select0 i ∧
      (b.split).1.select1 i = (Bits512.recompute (b.split).1.bits 256).select1 i) ∧
    (∀ i, (b.split).2.rank0 i = (Bits512.recompute (b.split).2.bits 256).rank0 i ∧
      (b.split).2.rank1 i = (Bits512.recompute (b.split).2.bits 256).rank1 i ∧
      (b.split).2.select0 i = (Bits512.recompute (b.split).2.bits 256).select0 i ∧
      (b.split).2.select1 i = (Bits512.recompute (b.split).2.bits 256).select1 i) := by
  obtain ⟨w0, w1, w2, w3, w4, w5, w6, w7, hbits⟩ :
      ∃ w0 w1 w2 w3 w4 w5 w6 w7, b.bits = [w0, w1, w2, w3, w4, w5, w6, w7] := by
    rcases hb : b.bits with _ | ⟨a0, _ | ⟨a1, _ | ⟨a2, _ | ⟨a3, _ | ⟨a4, _ | ⟨a5,
        _ | ⟨a6, _ | ⟨a7, _ | ⟨a8, t⟩⟩⟩⟩⟩⟩⟩⟩⟩ <;>
      first
        | exact ⟨a0, a1, a2, a3, a4, a5, a6, a7, rfl⟩
        | (rw [hb] at hlen8; simp at hlen8)
  have hw0 : w0 < 2 ^ 64 := hw w0 (by rw [hbits]; simp)
  have hw1 : w1 < 2 ^ 64 := hw w1 (by rw [hbits]; simp)
  have hw2 : w2 < 2 ^ 64 := hw w2 (by rw [hbits]; simp)
  have hw3 : w3 < 2 ^ 64 := hw w3 (by rw [hbits]; simp)
  have hw4 : w4 < 2 ^ 64 := hw w4 (by rw [hbits]; simp)
  have hw5 : w5 < 2 ^ 64 := hw w5 (by rw [hbits]; simp)
  have hw6 : w6 < 2 ^ 64 := hw w6 (by rw [hbits]; simp)
  have hw7 : w7 < 2 ^ 64 := hw w7 (by rw [hbits]; simp)
  have hp0 : popCount w0 ≤ 64 := popCount_le_of_lt_two_pow 64 w0 hw0
  have hp1 : popCount w1 ≤ 64 := popCount_le_of_lt_two_pow 64 w1 hw1
  have hp2 : popCount w2 ≤ 64 := popCount_le_of_lt_two_pow 64 w2 hw2
  have hp3 : popCount w3 ≤ 64 := popCount_le_of_lt_two_pow 64 w3 hw3
  have hp4 : popCount w4 ≤ 64 := popCount_le_of_lt_two_pow 64 w4 hw4
  have hp5 : popCount w5 ≤ 64 := popCount_le_of_lt_two_pow 64 w5 hw5
  have hp6 : popCount w6 ≤ 64 := popCount_le_of_lt_two_pow 64 w6 hw6
  have hp7 : popCount w7 ≤ 64 := popCount_le_of_lt_two_pow 64 w7 hw7
  have E1 : wordsOnesPre b.bits 1 = popCount w0 + 0 := by rw [hbits]; rfl
  have E2 : wordsOnesPre b.bits 2 = popCount w0 + (popCount w1 + 0) := by
    rw [hbits]; rfl
  have E3 : wordsOnesPre b.bits 3
      = popCount w0 + (popCount w1 + (popCount w2 + 0)) := by rw [hbits]; rfl
  have E4 : wordsOnesPre b.bits 4
      = popCount w0 + (popCount w1 + (popCount w2 + (popCount w3 + 0))) := by
    rw [hbits]; rfl
  have E5 : wordsOnesPre b.bits 5
      = popCount w0 + (popCount w1 + (popCount w2 + (popCount w3
        + (popCount w4 + 0)))) := by rw [hbits]; rfl
  have E6 : wordsOnesPre b.bits 6
      = popCount w0 + (popCount w1 + (popCount w2 + (popCount w3
        + (popCount w4 + (popCount w5 + 0))))) := by rw [hbits]; rfl
  have E7 : wordsOnesPre b.bits 7
      = popCount w0 + (popCount w1 + (popCount w2 + (popCount w3
        + (popCount w4 + (popCount w5 + (popCount w6 + 0)))))) := by
    rw [hbits]; rfl
  have hSbound : ∀ i : Fin 7,
      (fun i : Fin 7 => wordsOnesPre b.bits (i.val + 1)) i < 512 := by
    intro i
    have h1 := wordsOnesPre_le b.bits hw (i.val + 1)
    have h2 : i.val + 1 ≤ 7 := by omega
    show wordsOnesPre b.bits (i.val + 1) < 512
    have h3 : 64 * (i.val + 1) ≤ 448 := by omega
    omega
  have hpk : b.n_ones = pack9 [wordsOnesPre b.bits 1, wordsOnesPre b.bits 2,
      wordsOnesPre b.bits 3, wordsOnesPre b.bits 4, wordsOnesPre b.bits 5,
      wordsOnesPre b.bits 6, wordsOnesPre b.bits 7] := by
    rw [hcons, u9x7_new_eq _ hSbound]
    rfl
  rw [E1, E2, E3, E4, E5, E6, E7] at hpk
  have hub : ∀ a ∈ [popCount w0 + 0, popCount w0 + (popCount w1 + 0),
      popCount w0 + (popCount w1 + (popCount w2 + 0)),
      popCount w0 + (popCount w1 + (popCount w2 + (popCount w3 + 0))),
      popCount w0 + (popCount w1 + (popCount w2 + (popCount w3
        + (popCount w4 + 0)))),
      popCount w0 + (popCount w1 + (popCount w2 + (popCount w3
        + (popCount w4 + (popCount w5 + 0))))),
      popCount w0 + (popCount w1 + (popCount w2 + (popCount w3
        + (popCount w4 + (popCount w5 + (popCount w6 + 0))))))], a < 2 ^ 9 := by
    intro a ha
    simp only [List.mem_cons, List.not_mem_nil, or_false] at ha
    rcases ha with rfl | rfl | rfl | rfl | rfl | rfl | rfl <;> omega
  have hmid : u9x7.get b.n_ones 3
      = popCount w0 + (popCount w1 + (popCount w2 + (popCount w3 + 0))) := by
    rw [hpk, u9x7_get_pack9 _ hub 3]
    rfl
  have hget6 : u9x7.get b.n_ones 6
      = popCount w0 + (popCount w1 + (popCount w2 + (popCount w3
        + (popCount w4 + (popCount w5 + (popCount w6 + 0)))))) := by
    rw [hpk, u9x7_get_pack9 _ hub 6]
    rfl
  have hnum : b.num_ones
      = popCount w0 + (popCount w1 + (popCount w2 + (popCount w3
        + (popCount w4 + (popCount w5 + (popCount w6 + 0)))))) + popCount w7 := by
    unfold Bits512.num_ones
    rw [hget6, hbits]
    rfl
  have hshr : b.n_ones >>> (4 * 9)
      = pack9 [popCount w0 + (popCount w1 + (popCount w2 + (popCount w3
          + (popCount w4 + 0)))),
        popCount w0 + (popCount w1 + (popCount w2 + (popCount w3
          + (popCount w4 + (popCount w5 + 0))))),
        popCount w0 + (popCount w1 + (popCount w2 + (popCount w3
          + (popCount w4 + (popCount w5 + (popCount w6 + 0)))))) ] := by
    rw [hpk, Nat.shiftRight_eq_div_pow]
    have e : (4 * 9) = 9 * 4 := by norm_num
    rw [e, pack9_div_pow 4 _ hub]
    rfl
  have hand : b.n_ones &&& ((1 <<< 36) - 1)
      = pack9 [popCount w0 + 0, popCount w0 + (popCount w1 + 0),
        popCount w0 + (popCount w1 + (popCount w2 + 0)),
        popCount w0 + (popCount w1 + (popCount w2 + (popCount w3 + 0)))] := by
    rw [hpk, Nat.one_shiftLeft, Nat.and_pow_two_sub_one_eq_mod]
    have e : (2:Nat) ^ 36 = 2 ^ (9 * 4) := by norm_num
    rw [e, pack9_mod_pow 4 _ hub]
    rfl
  have hsp : b.split
      = (⟨(b.n_ones &&& ((1 <<< 36) - 1)) + u9x7.get b.n_ones 3
            * ((1 <<< 36) ||| (1 <<< 45) ||| (1 <<< 54)), 256,
          [w0, w1, w2, w3, 0, 0, 0, 0]⟩,
        ⟨sub64 ((b.n_ones >>> (4 * 9) + b.num_ones
              * ((1 <<< 27) ||| (1 <<< 36) ||| (1 <<< 45) ||| (1 <<< 54))) % 2 ^ 64)
            (u9x7.get b.n_ones 3 * (1 ||| (1 <<< 9) ||| (1 <<< 18) ||| (1 <<< 27)
              ||| (1 <<< 36) ||| (1 <<< 45) ||| (1 <<< 54))), 256,
          [w4, w5, w6, w7, 0, 0, 0, 0]⟩) := by
    unfold Bits512.split
    rw [hbits]
    rfl
  have hval1 : (b.n_ones &&& ((1 <<< 36) - 1)) + u9x7.get b.n_ones 3
        * ((1 <<< 36) ||| (1 <<< 45) ||| (1 <<< 54))
      = pack9 [popCount w0 + 0, popCount w0 + (popCount w1 + 0),
          popCount w0 + (popCount w1 + (popCount w2 + 0)),
          popCount w0 + (popCount w1 + (popCount w2 + (popCount w3 + 0))),
          popCount w0 + (popCount w1 + (popCount w2 + (popCount w3 + 0))),
          popCount w0 + (popCount w1 + (popCount w2 + (popCount w3 + 0))),
          popCount w0 + (popCount w1 + (popCount w2 + (popCount w3 + 0)))] := by
    rw [hand, hmid, pack9_M36]
    simp only [pack9]
    ring
  have hX : b.n_ones >>> (4 * 9) + b.num_ones
        * ((1 <<< 27) ||| (1 <<< 36) ||| (1 <<< 45) ||| (1 <<< 54)) < 2 ^ 64 := by
    rw [hshr, hnum, pack9_K27]
    simp only [pack9]
    have hpow : (2:Nat) ^ 64 = 18446744073709551616 := by norm_num
    omega
  have hYX : u9x7.get b.n_ones 3 * (1 ||| (1 <<< 9) ||| (1 <<< 18) ||| (1 <<< 27)
        ||| (1 <<< 36) ||| (1 <<< 45) ||| (1 <<< 54))
      ≤ b.n_ones >>> (4 * 9) + b.num_ones
        * ((1 <<< 27) ||| (1 <<< 36) ||| (1 <<< 45) ||| (1 <<< 54)) := by
    rw [hshr, hnum, hmid, pack9_K27, pack9_SH]
    simp only [pack9]
    omega
  have hval2 : sub64 ((b.n_ones >>> (4 * 9) + b.num_ones
          * ((1 <<< 27) ||| (1 <<< 36) ||| (1 <<< 45) ||| (1 <<< 54))) % 2 ^ 64)
        (u9x7.get b.n_ones 3 * (1 ||| (1 <<< 9) ||| (1 <<< 18) ||| (1 <<< 27)
          ||| (1 <<< 36) ||| (1 <<< 45) ||| (1 <<< 54)))
      = pack9 [popCount w4 + 0, popCount w4 + (popCount w5 + 0),
          popCount w4 + (popCount w5 + (popCount w6 + 0)),
          popCount w4 + (popCount w5 + (popCount w6 + (popCount w7 + 0))),
          popCount w4 + (popCount w5 + (popCount w6 + (popCount w7 + 0))),
          popCount w4 + (popCount w5 + (popCount w6 + (popCount w7 + 0))),
          popCount w4 + (popCount w5 + (popCount w6 + (popCount w7 + 0)))] := by
    rw [Nat.mod_eq_of_lt hX, sub64_eq _ _ hYX hX, hshr, hnum, hmid, pack9_K27,
      pack9_SH]
    simp only [pack9]
    omega
  have hlowb : ∀ i : Fin 7,
      (fun i : Fin 7 => wordsOnesPre [w0, w1, w2, w3, 0, 0, 0, 0] (i.val + 1)) i
        < 512 := by
    intro i
    have h1 := wordsOnesPre_le [w0, w1, w2, w3, 0, 0, 0, 0]
      (by
        intro w hwm
        simp only [List.mem_cons, List.not_mem_nil, or_false] at hwm
        rcases hwm with rfl | rfl | rfl | rfl | rfl | rfl | rfl | rfl
        · exact hw0
        · exact hw1
        · exact hw2
        · exact hw3
        all_goals exact Nat.two_pow_pos 64) (i.val + 1)
    have h2 : i.val + 1 ≤ 7 := by omega
    show wordsOnesPre [w0, w1, w2, w3, 0, 0, 0, 0] (i.val + 1) < 512
    have h3 : 64 * (i.val + 1) ≤ 448 := by omega
    omega
  have hlow : u9x7.new (fun i : Fin 7 =>
        wordsOnesPre [w0, w1, w2, w3, 0, 0, 0, 0] (i.val + 1))
      = pack9 [popCount w0 + 0, popCount w0 + (popCount w1 + 0),
          popCount w0 + (popCount w1 + (popCount w2 + 0)),
          popCount w0 + (popCount w1 + (popCount w2 + (popCount w3 + 0))),
          popCount w0 + (popCount w1 + (popCount w2 + (popCount w3 + (0 + 0)))),
          popCount w0 + (popCount w1 + (popCount w2 + (popCount w3
            + (0 + (0 + 0))))),
          popCount w0 + (popCount w1 + (popCount w2 + (popCount w3
            + (0 + (0 + (0 + 0))))))] := by
    rw [u9x7_new_eq _ hlowb]
    rfl
  have hupb : ∀ i : Fin 7,
      (fun i : Fin 7 => wordsOnesPre [w4, w5, w6, w7, 0, 0, 0, 0] (i.val + 1)) i
        < 512 := by
    intro i
    have h1 := wordsOnesPre_le [w4, w5, w6, w7, 0, 0, 0, 0]
      (by
        intro w hwm
        simp only [List.mem_cons, List.not_mem_nil, or_false] at hwm
        rcases hwm with rfl | rfl | rfl | rfl | rfl | rfl | rfl | rfl
        · exact hw4
        · exact hw5
        · exact hw6
        · exact hw7
        all_goals exact Nat.two_pow_pos 64) (i.val + 1)
    have h2 : i.val + 1 ≤ 7 := by omega
    show wordsOnesPre [w4, w5, w6, w7, 0, 0, 0, 0] (i.val + 1) < 512
    have h3 : 64 * (i.val + 1) ≤ 448 := by omega
    omega
  have hup : u9x7.new (fun i : Fin 7 =>
        wordsOnesPre [w4, w5, w6, w7, 0, 0, 0, 0] (i.val + 1))
      = pack9 [popCount w4 + 0, popCount w4 + (popCount w5 + 0),
          popCount w4 + (popCount w5 + (popCount w6 + 0)),
          popCount w4 + (popCount w5 + (popCount w6 + (popCount w7 + 0))),
          popCount w4 + (popCount w5 + (popCount w6 + (popCount w7 + (0 + 0)))),
          popCount w4 + (popCount w5 + (popCount w6 + (popCount w7
            + (0 + (0 + 0))))),
          popCount w4 + (popCount w5 + (popCount w6 + (popCount w7
            + (0 + (0 + (0 + 0))))))] := by
    rw [u9x7_new_eq _ hupb]
    rfl
  have hstruct1 : (b.split).1
      = Bits512.recompute [w0, w1, w2, w3, 0, 0, 0, 0] 256 := by
    rw [hsp]
    unfold Bits512.recompute
    have hn : (b.n_ones &&& ((1 <<< 36) - 1)) + u9x7.get b.n_ones 3
          * ((1 <<< 36) ||| (1 <<< 45) ||| (1 <<< 54))
        = u9x7.new (fun i : Fin 7 =>
            wordsOnesPre [w0, w1, w2, w3, 0, 0, 0, 0] (i.val + 1)) := by
      rw [hval1, hlow]
    rw [hn]
  have hstruct2 : (b.split).2
      = Bits512.recompute [w4, w5, w6, w7, 0, 0, 0, 0] 256 := by
    rw [hsp]
    unfold Bits512.recompute
    have hn : sub64 ((b.n_ones >>> (4 * 9) + b.num_ones
            * ((1 <<< 27) ||| (1 <<< 36) ||| (1 <<< 45) ||| (1 <<< 54))) % 2 ^ 64)
          (u9x7.get b.n_ones 3 * (1 ||| (1 <<< 9) ||| (1 <<< 18) ||| (1 <<< 27)
            ||| (1 <<< 36) ||| (1 <<< 45) ||| (1 <<< 54)))
        = u9x7.new (fun i : Fin 7 =>
            wordsOnesPre [w4, w5, w6, w7, 0, 0, 0, 0] (i.val + 1)) := by
      rw [hval2, hup]
    rw [hn]
  have hbits1 : (b.split).1.bits = [w0, w1, w2, w3, 0, 0, 0, 0] := by rw [hsp]
  have hbits2 : (b.split).2.bits = [w4, w5, w6, w7, 0, 0, 0, 0] := by rw [hsp]
  refine ⟨by rw [hsp], by rw [hsp], ?_, ?_, ?_, ?_, ?_, ?_, ?_⟩
  · intro i hi
    rw [hsp]
    unfold Bits512.get_bit
    rw [hbits]
    have h4 : i / 64 < 4 := by omega
    set q := i / 64 with hq
    interval_cases q <;> rfl
  · intro i hi
    rw [hsp]
    unfold Bits512.get_bit
    rw [hbits]
    have e1 : (256 + i) / 64 = 4 + i / 64 := by omega
    have e2 : (256 + i) % 64 = i % 64 := by omega
    rw [e1, e2]
    have h4 : i / 64 < 4 := by omega
    set q := i / 64 with hq
    interval_cases q <;> rfl
  · rw [hsp]
    unfold Bits512.num_ones
    show u9x7.get ((b.n_ones &&& ((1 <<< 36) - 1)) + u9x7.get b.n_ones 3
        * ((1 <<< 36) ||| (1 <<< 45) ||| (1 <<< 54))) 6 + popCount 0
      + (u9x7.get (sub64 ((b.n_ones >>> (4 * 9) + b.num_ones
          * ((1 <<< 27) ||| (1 <<< 36) ||| (1 <<< 45) ||| (1 <<< 54))) % 2 ^ 64)
          (u9x7.get b.n_ones 3 * (1 ||| (1 <<< 9) ||| (1 <<< 18) ||| (1 <<< 27)
            ||| (1 <<< 36) ||| (1 <<< 45) ||| (1 <<< 54)))) 6 + popCount 0)
      = b.num_ones
    rw [hval1, hval2, hnum]
    have hub1 : ∀ a ∈ [popCount w0 + 0, popCount w0 + (popCount w1 + 0),
        popCount w0 + (popCount w1 + (popCount w2 + 0)),
        popCount w0 + (popCount w1 + (popCount w2 + (popCount w3 + 0))),
        popCount w0 + (popCount w1 + (popCount w2 + (popCount w3 + 0))),
        popCount w0 + (popCount w1 + (popCount w2 + (popCount w3 + 0))),
        popCount w0 + (popCount w1 + (popCount w2 + (popCount w3 + 0)))],
        a < 2 ^ 9 := by
      intro a ha
      simp only [List.mem_cons, List.not_mem_nil, or_false] at ha
      rcases ha with rfl | rfl | rfl | rfl | rfl | rfl | rfl <;> omega
    have hub2 : ∀ a ∈ [popCount w4 + 0, popCount w4 + (popCount w5 + 0),
        popCount w4 + (popCount w5 + (popCount w6 + 0)),
        popCount w4 + (popCount w5 + (popCount w6 + (popCount w7 + 0))),
        popCount w4 + (popCount w5 + (popCount w6 + (popCount w7 + 0))),
        popCount w4 + (popCount w5 + (popCount w6 + (popCount w7 + 0))),
        popCount w4 + (popCount w5 + (popCount w6 + (popCount w7 + 0)))],
        a < 2 ^ 9 := by
      intro a ha
      simp only [List.mem_cons, List.not_mem_nil, or_false] at ha
      rcases ha with rfl | rfl | rfl | rfl | rfl | rfl | rfl <;> omega
    rw [u9x7_get_pack9 _ hub1 6, u9x7_get_pack9 _ hub2 6]
    show popCount w0 + (popCount w1 + (popCount w2 + (popCount w3 + 0)))
        + popCount 0 + (popCount w4 + (popCount w5 + (popCount w6
          + (popCount w7 + 0))) + popCount 0) = _
    have hz : popCount 0 = 0 := popCount_zero
    omega
  · rw [hbits1]
    exact hstruct1
  · rw [hbits2]
    exact hstruct2
  · intro i
    rw [hbits1, hstruct1]
    exact ⟨rfl, rfl, rfl, rfl⟩
  · intro i
    rw [hbits2, hstruct2]
    exact ⟨rfl, rfl, rfl, rfl⟩

/-- Witness for C5 at a concrete full block: eight words each equal to 1,
with the consistent packed directory `pack9 [1,2,3,4,5,6,7]`. -/
theorem bits512_split_correct_witness :
    ((Bits512.mk (pack9 [1, 2, 3, 4, 5, 6, 7]) 512
        [1, 1, 1, 1, 1, 1, 1, 1]).split).1.len = 256 ∧
    ((Bits512.mk (pack9 [1, 2, 3, 4, 5, 6, 7]) 512
        [1, 1, 1, 1, 1, 1, 1, 1]).split).2.len = 256 ∧
    ((Bits512.mk (pack9 [1, 2, 3, 4, 5, 6, 7]) 512
        [1, 1, 1, 1, 1, 1, 1, 1]).split).1.num_ones
      + ((Bits512.mk (pack9 [1, 2, 3, 4, 5, 6, 7]) 512
        [1, 1, 1, 1, 1, 1, 1, 1]).split).2.num_ones
      = (Bits512.mk (pack9 [1, 2, 3, 4, 5, 6, 7]) 512
        [1, 1, 1, 1, 1, 1, 1, 1]).num_ones :=
  have h := bits512_split_correct
    (Bits512.mk (pack9 [1, 2, 3, 4, 5, 6, 7]) 512 [1, 1, 1, 1, 1, 1, 1, 1])
    (by decide) (by decide) (by decide) (by decide)
  ⟨h.1, h.2.1, h.2.2.2.2.1⟩

/-! #### ByteMap: helper lemmas -/

theorem getD_set_self {α : Type} (x d : α) :
    ∀ (l : List α) (k : Nat), k < l.length → (l.set k x).getD k d = x := by
  intro l
  induction l with
  | nil => intro k hk; simp at hk
  | cons a t ih =>
    intro k hk
    cases k with
    | zero => rfl
    | succ k =>
      simp only [List.set_cons_succ, List.getD_cons_succ]
      exact ih k (by simpa using hk)

theorem getD_set_other {α : Type} (x d : α) :
    ∀ (l : List α) (k j : Nat), k ≠ j → (l.set k x).getD j d = l.getD j d := by
  intro l
  induction l with
  | nil => intro k j _; simp [List.set]
  | cons a t ih =>
    intro k j hkj
    cases k with
    | zero =>
      cases j with
      | zero => exact absurd rfl hkj
      | succ j => rfl
    | succ k =>
      cases j with
      | zero => rfl
      | succ j =>
        simp only [List.set_cons_succ, List.getD_cons_succ]
        exact ih k j (by omega)

theorem zip_left_of_length_eq {α β : Type} :
    ∀ (ks : List α) (vs rest : List β), ks.length = vs.length →
    ks.zip (vs ++ rest) = ks.zip vs := by
  intro ks
  induction ks with
  | nil => intro vs rest _; simp
  | cons k ks ih =>
    intro vs rest h
    cases vs with
    | nil => simp at h
    | cons v vs =>
      simp only [List.cons_append, List.zip_cons_cons]
      rw [ih vs rest (by simpa using h)]

theorem zip_append_of_length_eq {α β : Type} :
    ∀ (ks : List α) (vs : List β) (ks2 : List α) (vs2 : List β),
    ks.length = vs.length →
    (ks ++ ks2).zip (vs ++ vs2) = ks.zip vs ++ ks2.zip vs2 := by
  intro ks
  induction ks with
  | nil => intro vs ks2 vs2 h; cases vs <;> simp_all
  | cons k ks ih =>
    intro vs ks2 vs2 h
    cases vs with
    | nil => simp at h
    | cons v vs =>
      simp only [List.cons_append, List.zip_cons_cons]
      rw [ih vs ks2 vs2 (by simpa using h)]

theorem zip_replicate_pair {α β : Type} (a : α) (b : β) :
    ∀ n, (List.replicate n a).zip (List.replicate n b) = List.replicate n (a, b) := by
  intro n
  induction n with
  | zero => rfl
  | succ n ih => simp [List.replicate_succ, ih]

theorem pairwise_fst_zip {α β : Type} (R : α → α → Prop) :
    ∀ (ks : List α) (vs : List β), ks.Pairwise R →
    (ks.zip vs).Pairwise (fun p q => R p.1 q.1) := by
  intro ks
  induction ks with
  | nil => intro vs _; simp
  | cons k ks ih =>
    intro vs h
    cases vs with
    | nil => simp
    | cons v vs =>
      rw [List.pairwise_cons] at h
      simp only [List.zip_cons_cons, List.pairwise_cons]
      refine ⟨?_, ih vs h.2⟩
      intro q hq
      exact h.1 q.1 (List.mem_zip hq).1

theorem scanFirst_all_false {T : Type} (p : Nat → Bool) :
    ∀ L : List (Nat × Option T), (∀ q ∈ L, p q.1 = false) → scanFirst p L = none := by
  intro L
  induction L with
  | nil => intro _; rfl
  | cons q L ih =>
    intro h
    have hq := h q (List.mem_cons_self q L)
    obtain ⟨b, v⟩ := q
    simp only [scanFirst]
    rw [hq]
    exact ih (fun r hr => h r (List.mem_cons_of_mem _ hr))

theorem scanFirst_append_of_some {T : Type} (p : Nat → Bool) :
    ∀ L1 L2 : List (Nat × Option T), (∀ q ∈ L1, q.2.isSome = true) →
    scanFirst p (L1 ++ L2)
      = match scanFirst p L1 with
        | some r => some r
        | none => scanFirst p L2 := by
  intro L1
  induction L1 with
  | nil => intro L2 _; rfl
  | cons q L1 ih =>
    intro L2 h
    obtain ⟨b, v⟩ := q
    have hv : v.isSome = true := h (b, v) (List.mem_cons_self _ _)
    obtain ⟨x, rfl⟩ := Option.isSome_iff_exists.mp hv
    simp only [List.cons_append, scanFirst]
    by_cases hb : p b
    · rw [hb]; rfl
    · rw [Bool.not_eq_true] at hb
      rw [hb]
      exact ih L2 (fun r hr => h r (List.mem_cons_of_mem _ hr))

theorem scanFirst_replicate_none {T : Type} (p : Nat → Bool) :
    ∀ n, scanFirst (T := T) p (List.replicate n (0, none)) = none := by
  intro n
  induction n with
  | zero => rfl
  | succ n ih =>
    simp only [List.replicate_succ, scanFirst]
    by_cases h : p 0
    · rw [h]; rfl
    · rw [Bool.not_eq_true] at h
      rw [h]
      exact ih

theorem scanFirst_cons {T : Type} (p : Nat → Bool) (b : Nat) (v : Option T)
    (rest : List (Nat × Option T)) :
    scanFirst p ((b, v) :: rest)
      = if p b then v.map (fun x => (b, x)) else scanFirst p rest := rfl

theorem scanDownGo_correct {T : Type} (g : Nat → Option (Option T)) (f : Nat → Option T)
    (hg : ∀ c, (g c = none → f c = none) ∧
      (∀ o, g c = some o → o = f c ∧ o.isSome = true)) :
    ∀ b, match scanDownGo g b with
    | some (k, v) => k ≤ b ∧ f k = some v ∧ ∀ j, k < j → j ≤ b → f j = none
    | none => ∀ j, j ≤ b → f j = none := by
  intro b
  induction b with
  | zero =>
    simp only [scanDownGo]
    cases h : g 0 with
    | none =>
      intro j hj
      have hj0 : j = 0 := by omega
      subst hj0
      exact (hg 0).1 h
    | some o =>
      obtain ⟨ho, hs⟩ := (hg 0).2 o h
      obtain ⟨v, rfl⟩ := Option.isSome_iff_exists.mp hs
      simp only [Option.map_some]
      exact ⟨Nat.le_refl 0, ho.symm, fun j hj1 hj2 => absurd (Nat.lt_of_lt_of_le hj1 hj2) (Nat.lt_irrefl 0)⟩
  | succ b ih =>
    simp only [scanDownGo]
    cases h : g (b + 1) with
    | none =>
      have hfb : f (b + 1) = none := (hg (b + 1)).1 h
      revert ih
      cases hs : scanDownGo g b with
      | none =>
        intro ih j hj
        rcases Nat.lt_or_ge j (b + 1) with hlt | hge
        · exact ih j (by omega)
        · have : j = b + 1 := by omega
          subst this
          exact hfb
      | some r =>
        obtain ⟨k, v⟩ := r
        intro ih
        obtain ⟨h1, h2, h3⟩ := ih
        refine ⟨by omega, h2, ?_⟩
        intro j hj1 hj2
        rcases Nat.lt_or_ge j (b + 1) with hlt | hge
        · exact h3 j hj1 (by omega)
        · have : j = b + 1 := by omega
          subst this
          exact hfb
    | some o =>
      obtain ⟨ho, hs⟩ := (hg (b + 1)).2 o h
      obtain ⟨v, rfl⟩ := Option.isSome_iff_exists.mp hs
      simp only [Option.map_some]
      exact ⟨Nat.le_refl _, ho.symm, fun j hj1 hj2 => absurd (Nat.lt_of_lt_of_le hj1 hj2) (Nat.lt_irrefl (b + 1))⟩

theorem scanUpGo_correct {T : Type} (g : Nat → Option (Option T)) (f : Nat → Option T)
    (hg : ∀ c, (g c = none → f c = none) ∧
      (∀ o, g c = some o → o = f c ∧ o.isSome = true)) :
    ∀ (fuel b : Nat), b + fuel = 256 →
    match scanUpGo g b fuel with
    | some (k, v) => b ≤ k ∧ k < 256 ∧ f k = some v ∧
        ∀ j, b ≤ j → j < k → f j = none
    | none => ∀ j, b ≤ j → j < 256 → f j = none := by
  intro fuel
  induction fuel with
  | zero =>
    intro b hb
    simp only [scanUpGo]
    intro j hj1 hj2
    omega
  | succ fuel ih =>
    intro b hb
    simp only [scanUpGo]
    cases h : g b with
    | none =>
      have hfb : f b = none := (hg b).1 h
      have := ih (b + 1) (by omega)
      revert this
      cases hs : scanUpGo g (b + 1) fuel with
      | none =>
        intro hnone j hj1 hj2
        rcases Nat.lt_or_ge b j with hlt | hge
        · exact hnone j (by omega) hj2
        · have : j = b := by omega
          subst this
          exact hfb
      | some r =>
        obtain ⟨k, v⟩ := r
        intro hsome
        obtain ⟨h1, h2, h3, h4⟩ := hsome
        refine ⟨by omega, h2, h3, ?_⟩
        intro j hj1 hj2
        rcases Nat.lt_or_ge b j with hlt | hge
        · exact h4 j (by omega) hj2
        · have : j = b := by omega
          subst this
          exact hfb
    | some o =>
      obtain ⟨ho, hs⟩ := (hg b).2 o h
      obtain ⟨v, rfl⟩ := Option.isSome_iff_exists.mp hs
      simp only [Option.map_some]
      exact ⟨Nat.le_refl _, by omega, ho.symm,
        fun j hj1 hj2 => absurd (Nat.lt_of_le_of_lt hj1 hj2) (Nat.lt_irrefl b)⟩

theorem scanFirst_rev_pred {T : Type} (b : Nat) :
    ∀ L : List (Nat × Option T), L.Pairwise (fun p q => p.1 < q.1) →
    (∀ q ∈ L, q.2.isSome = true) →
    match scanFirst (fun k => decide (k ≤ b)) L.reverse with
    | some (k, v) => k ≤ b ∧ (k, some v) ∈ L ∧
        (scanFirst (fun x => decide (x = k)) L).map Prod.snd = some v ∧
        ∀ j, k < j → j ≤ b →
          (scanFirst (fun x => decide (x = j)) L).map Prod.snd = none
    | none => ∀ j, j ≤ b →
        (scanFirst (fun x => decide (x = j)) L).map Prod.snd = none := by
  intro L
  induction L using List.reverseRecOn with
  | nil =>
    intro _ _
    simp only [List.reverse_nil, scanFirst]
    intro j _
    rfl
  | append_singleton L q ih =>
    intro hsort hsome
    rw [List.pairwise_append] at hsort
    obtain ⟨hsortL, _, hlt⟩ := hsort
    have hltq : ∀ a ∈ L, a.1 < q.1 := by
      intro a ha
      exact hlt a ha q (List.mem_cons_self q [])
    have hsomeL : ∀ r ∈ L, r.2.isSome = true := by
      intro r hr
      exact hsome r (List.mem_append_left _ hr)
    have hqv : q.2.isSome = true := hsome q (List.mem_append_right _ (List.mem_cons_self q []))
    obtain ⟨kq, vq⟩ := q
    obtain ⟨v, rfl⟩ := Option.isSome_iff_exists.mp hqv
    rw [List.reverse_append, List.reverse_singleton, List.singleton_append,
      scanFirst_cons (fun k => decide (k ≤ b))]
    by_cases hkb : kq ≤ b
    · rw [if_pos (decide_eq_true hkb)]
      refine ⟨hkb, List.mem_append_right _ (List.mem_cons_self _ _), ?_, ?_⟩
      · rw [scanFirst_append_of_some _ _ _ hsomeL]
        rw [scanFirst_all_false _ L (by
          intro r hr
          simp only [decide_eq_false_iff_not]
          exact Nat.ne_of_lt (hltq r hr))]
        simp [scanFirst]
      · intro j hj1 hj2
        rw [scanFirst_append_of_some _ _ _ hsomeL]
        rw [scanFirst_all_false _ L (by
          intro r hr
          simp only [decide_eq_false_iff_not]
          have := hltq r hr
          omega)]
        simp only [scanFirst]
        rw [if_neg (by simp only [decide_eq_true_eq]; omega)]
        rfl
    · rw [if_neg (by simpa using hkb)]
      have htrans : ∀ j, j ≤ b →
          (scanFirst (fun x => decide (x = j)) (L ++ [(kq, some v)])).map Prod.snd
            = (scanFirst (fun x => decide (x = j)) L).map Prod.snd := by
        intro j hj
        rw [scanFirst_append_of_some _ _ _ hsomeL]
        cases hs : scanFirst (fun x => decide (x = j)) L with
        | some r => rfl
        | none =>
          simp only [scanFirst]
          rw [if_neg (by simp only [decide_eq_true_eq]; omega)]
      have := ih hsortL hsomeL
      revert this
      cases hs : scanFirst (fun k => decide (k ≤ b)) L.reverse with
      | none =>
        intro hnone j hj
        rw [htrans j hj]
        exact hnone j hj
      | some r =>
        obtain ⟨k, w⟩ := r
        intro hsomecase
        obtain ⟨h1, h2, h3, h4⟩ := hsomecase
        refine ⟨h1, List.mem_append_left _ h2, ?_, ?_⟩
        · rw [htrans k h1]
          exact h3
        · intro j hj1 hj2
          rw [htrans j hj2]
          exact h4 j hj1 hj2

theorem scanFirst_succ {T : Type} (b pad : Nat) :
    ∀ L : List (Nat × Option T), L.Pairwise (fun p q => p.1 < q.1) →
    (∀ q ∈ L, q.2.isSome = true) →
    match scanFirst (fun k => decide (b ≤ k)) (L ++ List.replicate pad (0, none)) with
    | some (k, v) => b ≤ k ∧ (k, some v) ∈ L ∧
        (scanFirst (fun x => decide (x = k)) L).map Prod.snd = some v ∧
        ∀ j, b ≤ j → j < k →
          (scanFirst (fun x => decide (x = j)) L).map Prod.snd = none
    | none => ∀ j, b ≤ j →
        (scanFirst (fun x => decide (x = j)) L).map Prod.snd = none := by
  intro L
  induction L with
  | nil =>
    intro _ _
    rw [List.nil_append, scanFirst_replicate_none]
    intro j _
    rfl
  | cons q L ih =>
    intro hsort hsome
    rw [List.pairwise_cons] at hsort
    obtain ⟨hltq, hsortL⟩ := hsort
    have hsomeL : ∀ r ∈ L, r.2.isSome = true := by
      intro r hr
      exact hsome r (List.mem_cons_of_mem _ hr)
    have hqv : q.2.isSome = true := hsome q (List.mem_cons_self _ _)
    obtain ⟨kq, vq⟩ := q
    obtain ⟨v, rfl⟩ := Option.isSome_iff_exists.mp hqv
    rw [List.cons_append, scanFirst_cons (fun k => decide (b ≤ k))]
    by_cases hkb : b ≤ kq
    · rw [if_pos (decide_eq_true hkb)]
      refine ⟨hkb, List.mem_cons_self _ _, ?_, ?_⟩
      · simp [scanFirst]
      · intro j hj1 hj2
        simp only [scanFirst]
        rw [if_neg (by simp only [decide_eq_true_eq]; omega)]
        rw [scanFirst_all_false _ L (by
          intro r hr
          simp only [decide_eq_false_iff_not]
          have := hltq r hr
          omega)]
        rfl
    · rw [if_neg (by simpa using hkb)]
      have hkqb : kq < b := by omega
      have htrans : ∀ j, b ≤ j →
          (scanFirst (fun x => decide (x = j)) ((kq, some v) :: L)).map Prod.snd
            = (scanFirst (fun x => decide (x = j)) L).map Prod.snd := by
        intro j hj
        simp only [scanFirst]
        rw [if_neg (by simp only [decide_eq_true_eq]; omega)]
      have := ih hsortL hsomeL
      revert this
      cases hs : scanFirst (fun k => decide (b ≤ k)) (L ++ List.replicate pad (0, none)) with
      | none =>
        intro hnone j hj
        rw [htrans j hj]
        exact hnone j hj
      | some r =>
        obtain ⟨k, w⟩ := r
        intro hsomecase
        obtain ⟨h1, h2, h3, h4⟩ := hsomecase
        refine ⟨h1, List.mem_cons_of_mem _ h2, ?_, ?_⟩
        · rw [htrans k h1]
          exact h3
        · intro j hj1 hj2
          rw [htrans j hj1]
          exact h4 j hj1 hj2

theorem lin_zip_eq {T : Type} {size len : Nat} {bytes : List Nat}
    {values : List (Option T)} (h : InvLin size len bytes values) :
    ∃ (keys : List Nat) (vals : List (Option T)),
      keys.length = len ∧ vals.length = len ∧
      (bytes.take len).zip values = keys.zip vals ∧
      bytes.zip values = keys.zip vals ++ List.replicate (size - len) (0, none) ∧
      (keys.zip vals).Pairwise (fun p q => p.1 < q.1) ∧
      (∀ q ∈ keys.zip vals, q.2.isSome = true) ∧
      (∀ q ∈ keys.zip vals, q.1 < 256) := by
  obtain ⟨hls, keys, vals, hkl, hvl, hb, hv, hsort, hkb, hvs⟩ := h
  refine ⟨keys, vals, hkl, hvl, ?_, ?_, ?_, ?_, ?_⟩
  · rw [hb, hv]
    have ht : (keys ++ List.replicate (size - len) 0).take len = keys := by
      rw [← hkl, List.take_left]
    rw [ht]
    exact zip_left_of_length_eq keys vals _ (hkl.trans hvl.symm)
  · rw [hb, hv, zip_append_of_length_eq keys vals _ _ (hkl.trans hvl.symm),
      zip_replicate_pair]
  · exact pairwise_fst_zip _ keys vals hsort
  · intro q hq
    exact hvs q.2 (List.mem_zip hq).2
  · intro q hq
    exact hkb q.1 (List.mem_zip hq).1

theorem n48_g_spec {T : Type} {len : Nat} {positions : List Nat}
    {values : List (Option T)} (hm : Inv48 len positions values) :
    ∀ c, ((if positions.getD c 255 < 48
        then some (values.getD (positions.getD c 255) none) else none) = none →
        (if positions.getD c 255 < 48
        then values.getD (positions.getD c 255) none else none) = none) ∧
      (∀ o, (if positions.getD c 255 < 48
        then some (values.getD (positions.getD c 255) none) else none) = some o →
        o = (if positions.getD c 255 < 48
        then values.getD (positions.getD c 255) none else none) ∧ o.isSome = true) := by
  obtain ⟨hplen, hvlen, hlen48, hocc, _hinj, _hsurj, hsome, _hnone⟩ := hm
  intro c
  by_cases hc : positions.getD c 255 < 48
  · constructor
    · intro hcon
      rw [if_pos hc] at hcon
      cases hcon
    · intro o ho
      rw [if_pos hc] at ho
      have heq := Option.some.inj ho
      constructor
      · rw [if_pos hc]
        exact heq.symm
      · have hc256 : c < 256 := by
          by_contra hge
          have hd : positions.getD c 255 = 255 :=
            List.getD_eq_default _ _ (by omega)
          omega
        have hlt := hocc c hc256 hc
        have hs := hsome _ hlt
        rw [← heq]
        exact hs
  · constructor
    · intro _
      rw [if_neg hc]
    · intro o ho
      rw [if_neg hc] at ho
      cases ho

theorem n256_g_spec {T : Type} (values : List (Option T)) :
    ∀ c, ((if (values.getD c none).isSome then some (values.getD c none) else none)
          = none → values.getD c none = none) ∧
      (∀ o, (if (values.getD c none).isSome then some (values.getD c none) else none)
          = some o → o = values.getD c none ∧ o.isSome = true) := by
  intro c
  cases hv : values.getD c none with
  | none =>
    constructor
    · intro _
      rfl
    · intro o ho
      rw [if_neg (by simp)] at ho
      cases ho
  | some x =>
    constructor
    · intro hcon
      rw [if_pos (by simp)] at hcon
      cases hcon
    · intro o ho
      rw [if_pos (by simp)] at ho
      exact ⟨(Option.some.inj ho).symm, by rw [(Option.some.inj ho).symm]; rfl⟩

theorem bm_mut_eq {T : Type} (m : ByteMap T) (b : Nat) :
    m.predecessor_mut b = m.predecessor b ∧ m.successor_mut b = m.successor b := by
  cases m <;> exact ⟨rfl, rfl⟩

theorem bm_pred_correct {T : Type} (m : ByteMap T) (hm : BMInv m) (b : Nat) :
    (∀ k v, m.predecessor b = some (k, v) → k ≤ b ∧ m.content k = some v ∧
      ∀ j, k < j → j ≤ b → m.content j = none) ∧
    (m.predecessor b = none → ∀ j, j ≤ b → m.content j = none) := by
  cases m with
  | N4 len bytes values =>
    obtain ⟨keys, vals, hkl, hvl, hzip, hfull, hsort, hsome, hkb⟩ := lin_zip_eq hm
    simp only [ByteMap.predecessor, ByteMap.content]
    rw [hzip]
    by_cases hlen : len = 0
    · rw [if_pos hlen]
      subst hlen
      have hk0 : keys = [] := List.eq_nil_of_length_eq_zero hkl
      subst hk0
      constructor
      · intro k v h
        cases h
      · intro _ j _
        rfl
    · rw [if_neg hlen]
      have h := scanFirst_rev_pred b (keys.zip vals) hsort hsome
      revert h
      cases hs : scanFirst (fun k => decide (k ≤ b)) (keys.zip vals).reverse with
      | none =>
        intro h
        constructor
        · intro k v hkv
          cases hkv
        · intro _ j hj
          exact h j hj
      | some r =>
        obtain ⟨k0, v0⟩ := r
        intro h
        obtain ⟨h1, _hm2, h2, h3⟩ := h
        constructor
        · intro k v hkv
          simp only [Option.some.injEq, Prod.mk.injEq] at hkv
          obtain ⟨rfl, rfl⟩ := hkv
          exact ⟨h1, h2, h3⟩
        · intro hcon
          cases hcon
  | N16 len bytes values =>
    obtain ⟨keys, vals, hkl, hvl, hzip, hfull, hsort, hsome, hkb⟩ := lin_zip_eq hm
    simp only [ByteMap.predecessor, ByteMap.content]
    rw [hzip]
    have h := scanFirst_rev_pred b (keys.zip vals) hsort hsome
    revert h
    cases hs : scanFirst (fun k => decide (k ≤ b)) (keys.zip vals).reverse with
    | none =>
      intro h
      constructor
      · intro k v hkv
        cases hkv
      · intro _ j hj
        exact h j hj
    | some r =>
      obtain ⟨k0, v0⟩ := r
      intro h
      obtain ⟨h1, _hm2, h2, h3⟩ := h
      constructor
      · intro k v hkv
        simp only [Option.some.injEq, Prod.mk.injEq] at hkv
        obtain ⟨rfl, rfl⟩ := hkv
        exact ⟨h1, h2, h3⟩
      · intro hcon
        cases hcon
  | N48 len positions values =>
    simp only [ByteMap.predecessor, ByteMap.content]
    have h := scanDownGo_correct
      (fun c => if positions.getD c 255 < 48
        then some (values.getD (positions.getD c 255) none) else none)
      (fun c => if positions.getD c 255 < 48
        then values.getD (positions.getD c 255) none else none)
      (n48_g_spec hm) b
    revert h
    cases hs : scanDownGo (fun c => if positions.getD c 255 < 48
        then some (values.getD (positions.getD c 255) none) else none) b with
    | none =>
      intro h
      constructor
      · intro k v hkv
        cases hkv
      · intro _ j hj
        exact h j hj
    | some r =>
      obtain ⟨k0, v0⟩ := r
      intro h
      obtain ⟨h1, h2, h3⟩ := h
      constructor
      · intro k v hkv
        simp only [Option.some.injEq, Prod.mk.injEq] at hkv
        obtain ⟨rfl, rfl⟩ := hkv
        exact ⟨h1, h2, h3⟩
      · intro hcon
        cases hcon
  | N256 len values =>
    simp only [ByteMap.predecessor, ByteMap.content]
    have h := scanDownGo_correct
      (fun c => if (values.getD c none).isSome
        then some (values.getD c none) else none)
      (fun c => values.getD c none)
      (n256_g_spec values) b
    revert h
    cases hs : scanDownGo (fun c => if (values.getD c none).isSome
        then some (values.getD c none) else none) b with
    | none =>
      intro h
      constructor
      · intro k v hkv
        cases hkv
      · intro _ j hj
        exact h j hj
    | some r =>
      obtain ⟨k0, v0⟩ := r
      intro h
      obtain ⟨h1, h2, h3⟩ := h
      constructor
      · intro k v hkv
        simp only [Option.some.injEq, Prod.mk.injEq] at hkv
        obtain ⟨rfl, rfl⟩ := hkv
        exact ⟨h1, h2, h3⟩
      · intro hcon
        cases hcon

theorem bm_succ_correct {T : Type} (m : ByteMap T) (hm : BMInv m) (b : Nat)
    (hb : b < 256) :
    (∀ k v, m.successor b = some (k, v) → b ≤ k ∧ k < 256 ∧ m.content k = some v ∧
      ∀ j, b ≤ j → j < k → m.content j = none) ∧
    (m.successor b = none → ∀ j, b ≤ j → j < 256 → m.content j = none) := by
  cases m with
  | N4 len bytes values =>
    obtain ⟨keys, vals, hkl, hvl, hzip, hfull, hsort, hsome, hkb⟩ := lin_zip_eq hm
    simp only [ByteMap.successor, ByteMap.content]
    rw [hzip, hfull]
    by_cases hlen : len = 0
    · rw [if_pos hlen]
      subst hlen
      have hk0 : keys = [] := List.eq_nil_of_length_eq_zero hkl
      subst hk0
      constructor
      · intro k v h
        cases h
      · intro _ j _ _
        rfl
    · rw [if_neg hlen]
      have h := scanFirst_succ b (4 - len) (keys.zip vals) hsort hsome
      revert h
      cases hs : scanFirst (fun k => decide (b ≤ k))
          (keys.zip vals ++ List.replicate (4 - len) (0, none)) with
      | none =>
        intro h
        constructor
        · intro k v hkv
          cases hkv
        · intro _ j hj _
          exact h j hj
      | some r =>
        obtain ⟨k0, v0⟩ := r
        intro h
        obtain ⟨h1, hmem, h2, h3⟩ := h
        constructor
        · intro k v hkv
          simp only [Option.some.injEq, Prod.mk.injEq] at hkv
          obtain ⟨rfl, rfl⟩ := hkv
          exact ⟨h1, hkb _ hmem, h2, h3⟩
        · intro hcon
          cases hcon
  | N16 len bytes values =>
    obtain ⟨keys, vals, hkl, hvl, hzip, hfull, hsort, hsome, hkb⟩ := lin_zip_eq hm
    simp only [ByteMap.successor, ByteMap.content]
    rw [hzip, hfull]
    have h := scanFirst_succ b (16 - len) (keys.zip vals) hsort hsome
    revert h
    cases hs : scanFirst (fun k => decide (b ≤ k))
        (keys.zip vals ++ List.replicate (16 - len) (0, none)) with
    | none =>
      intro h
      constructor
      · intro k v hkv
        cases hkv
      · intro _ j hj _
        exact h j hj
    | some r =>
      obtain ⟨k0, v0⟩ := r
      intro h
      obtain ⟨h1, hmem, h2, h3⟩ := h
      constructor
      · intro k v hkv
        simp only [Option.some.injEq, Prod.mk.injEq] at hkv
        obtain ⟨rfl, rfl⟩ := hkv
        exact ⟨h1, hkb _ hmem, h2, h3⟩
      · intro hcon
        cases hcon
  | N48 len positions values =>
    simp only [ByteMap.successor, ByteMap.content]
    have h := scanUpGo_correct
      (fun c => if positions.getD c 255 < 48
        then some (values.getD (positions.getD c 255) none) else none)
      (fun c => if positions.getD c 255 < 48
        then values.getD (positions.getD c 255) none else none)
      (n48_g_spec hm) (256 - b) b (by omega)
    revert h
    cases hs : scanUpGo (fun c => if positions.getD c 255 < 48
        then some (values.getD (positions.getD c 255) none) else none) b (256 - b) with
    | none =>
      intro h
      constructor
      · intro k v hkv
        cases hkv
      · intro _ j hj1 hj2
        exact h j hj1 hj2
    | some r =>
      obtain ⟨k0, v0⟩ := r
      intro h
      obtain ⟨h1, h2, h3, h4⟩ := h
      constructor
      · intro k v hkv
        simp only [Option.some.injEq, Prod.mk.injEq] at hkv
        obtain ⟨rfl, rfl⟩ := hkv
        exact ⟨h1, h2, h3, h4⟩
      · intro hcon
        cases hcon
  | N256 len values =>
    simp only [ByteMap.successor, ByteMap.content]
    have h := scanUpGo_correct
      (fun c => if (values.getD c none).isSome
        then some (values.getD c none) else none)
      (fun c => values.getD c none)
      (n256_g_spec values) (256 - b) b (by omega)
    revert h
    cases hs : scanUpGo (fun c => if (values.getD c none).isSome
        then some (values.getD c none) else none) b (256 - b) with
    | none =>
      intro h
      constructor
      · intro k v hkv
        cases hkv
      · intro _ j hj1 hj2
        exact h j hj1 hj2
    | some r =>
      obtain ⟨k0, v0⟩ := r
      intro h
      obtain ⟨h1, h2, h3, h4⟩ := h
      constructor
      · intro k v hkv
        simp only [Option.some.injEq, Prod.mk.injEq] at hkv
        obtain ⟨rfl, rfl⟩ := hkv
        exact ⟨h1, h2, h3, h4⟩
      · intro hcon
        cases hcon

theorem dropLast_append_ne {α : Type} (l1 : List α) :
    ∀ l2 : List α, l2 ≠ [] → (l1 ++ l2).dropLast = l1 ++ l2.dropLast := by
  induction l1 with
  | nil => intro l2 _; simp
  | cons a l1 ih =>
    intro l2 h2
    rw [List.cons_append, List.dropLast_cons_of_ne_nil (by simp [h2]), ih l2 h2,
      List.cons_append]

theorem dropLast_replicate_succ {α : Type} (x : α) (n : Nat) :
    (List.replicate (n + 1) x).dropLast = List.replicate n x := by
  rw [List.replicate_succ', List.dropLast_concat]

theorem take_append_of_le {α : Type} (l1 l2 : List α) (n : Nat) (h : n ≤ l1.length) :
    (l1 ++ l2).take n = l1.take n := by
  rw [List.take_append_eq_append_take]
  have : n - l1.length = 0 := by omega
  rw [this, List.take_zero, List.append_nil]

theorem drop_append_of_le {α : Type} (l1 l2 : List α) (n : Nat) (h : n ≤ l1.length) :
    (l1 ++ l2).drop n = l1.drop n ++ l2 := by
  rw [List.drop_append_eq_append_drop]
  have : n - l1.length = 0 := by omega
  rw [this, List.drop_zero]

theorem set_append_left {α : Type} (x : α) :
    ∀ (l1 l2 : List α) (n : Nat), n < l1.length →
    (l1 ++ l2).set n x = l1.set n x ++ l2 := by
  intro l1
  induction l1 with
  | nil => intro l2 n h; simp at h
  | cons a l1 ih =>
    intro l2 n h
    cases n with
    | zero => rfl
    | succ n =>
      simp only [List.cons_append, List.set_cons_succ]
      rw [ih l2 n (by simpa using h)]

theorem getD_append_left {α : Type} (d : α) :
    ∀ (l1 l2 : List α) (n : Nat), n < l1.length →
    (l1 ++ l2).getD n d = l1.getD n d := by
  intro l1
  induction l1 with
  | nil => intro l2 n h; simp at h
  | cons a l1 ih =>
    intro l2 n h
    cases n with
    | zero => rfl
    | succ n =>
      simp only [List.cons_append, List.getD_cons_succ]
      exact ih l2 n (by simpa using h)

theorem getD_append_right2 {α : Type} (d : α) :
    ∀ (l1 l2 : List α) (n : Nat), l1.length ≤ n →
    (l1 ++ l2).getD n d = l2.getD (n - l1.length) d := by
  intro l1
  induction l1 with
  | nil => intro l2 n _; simp
  | cons a l1 ih =>
    intro l2 n h
    cases n with
    | zero => simp at h
    | succ n =>
      simp only [List.cons_append, List.getD_cons_succ, List.length_cons]
      rw [ih l2 n (by simpa using h)]
      congr 1
      omega

theorem getD_replicate_self {α : Type} (x : α) :
    ∀ (n j : Nat), (List.replicate n x).getD j x = x := by
  intro n
  induction n with
  | zero => intro j; simp [List.getD]
  | succ n ih =>
    intro j
    cases j with
    | zero => rfl
    | succ j =>
      rw [List.replicate_succ]
      exact ih j

theorem map_range_getD {α : Type} (h : Nat → α) (d : α) :
    ∀ (n j : Nat), j < n → ((List.range n).map h).getD j d = h j := by
  intro n j hj
  rw [List.getD_eq_getElem _ d (by simpa using hj)]
  simp

theorem list_eta4 {α : Type} (d : α) :
    ∀ l : List α, l.length = 4 → [l.getD 0 d, l.getD 1 d, l.getD 2 d, l.getD 3 d] = l := by
  intro l
  match l with
  | [a, b, c, e] => intro _; rfl
  | [] => intro h; simp at h
  | [a] => intro h; simp at h
  | [a, b] => intro h; simp at h
  | [a, b, c] => intro h; simp at h
  | a :: b :: c :: e :: f :: t => intro h; simp at h

theorem sorted_getD_lt (keys : List Nat) (hsort : keys.Pairwise (· < ·)) :
    ∀ i i', i < i' → i' < keys.length → keys.getD i 0 < keys.getD i' 0 := by
  intro i i' hii hlen
  have hi : i < keys.length := by omega
  rw [List.getD_eq_getElem _ 0 hi, List.getD_eq_getElem _ 0 hlen]
  exact List.pairwise_iff_getElem.mp hsort i i' hi hlen hii

theorem getD_mem_of_lt {α : Type} (d : α) (l : List α) (n : Nat) (h : n < l.length) :
    l.getD n d ∈ l := by
  rw [List.getD_eq_getElem _ d h]
  exact List.getElem_mem h

theorem linEntryGo_char (key : Nat) :
    ∀ (keys : List Nat) (r : Nat), keys.Pairwise (· < ·) →
    (∃ t, t ≤ keys.length ∧ ByteMap.linEntryGo key keys r = .vacant (r + t) ∧
      (∀ a ∈ keys.take t, a < key) ∧ (∀ a ∈ keys.drop t, key < a)) ∨
    (∃ t, t < keys.length ∧ ByteMap.linEntryGo key keys r = .occupied (r + t) ∧
      keys.getD t 0 = key ∧ (∀ a ∈ keys.take t, a < key)) := by
  intro keys
  induction keys with
  | nil =>
    intro r _
    exact Or.inl ⟨0, by simp [ByteMap.linEntryGo]⟩
  | cons b rest ih =>
    intro r hsort
    rw [List.pairwise_cons] at hsort
    obtain ⟨hblt, hrest⟩ := hsort
    by_cases hbk : b = key
    · refine Or.inr ⟨0, by simp, ?_, by simpa using hbk, by simp⟩
      simp only [ByteMap.linEntryGo]
      rw [if_pos hbk, Nat.add_zero]
    · by_cases hkb : key < b
      · refine Or.inl ⟨0, by simp, ?_, by simp, ?_⟩
        · simp only [ByteMap.linEntryGo]
          rw [if_neg hbk, if_pos hkb, Nat.add_zero]
        · intro a ha
          simp only [List.drop_zero, List.mem_cons] at ha
          rcases ha with rfl | ha
          · exact hkb
          · exact Nat.lt_trans hkb (hblt a ha)
      · have hbklt : b < key := by omega
        rcases ih (r + 1) hrest with ⟨t, ht, heq, htake, hdrop⟩ | ⟨t, ht, heq, hkey, htake⟩
        · refine Or.inl ⟨t + 1, by simp; omega, ?_, ?_, ?_⟩
          · simp only [ByteMap.linEntryGo]
            rw [if_neg hbk, if_neg hkb, heq]
            congr 1
            omega
          · intro a ha
            rw [List.take_succ_cons] at ha
            rcases List.mem_cons.mp ha with rfl | ha
            · exact hbklt
            · exact htake a ha
          · intro a ha
            rw [List.drop_succ_cons] at ha
            exact hdrop a ha
        · refine Or.inr ⟨t + 1, by simp; omega, ?_, by simpa using hkey, ?_⟩
          · simp only [ByteMap.linEntryGo]
            rw [if_neg hbk, if_neg hkb, heq]
            congr 1
            omega
          · intro a ha
            rw [List.take_succ_cons] at ha
            rcases List.mem_cons.mp ha with rfl | ha
            · exact hbklt
            · exact htake a ha

theorem foldl_set_length {α : Type} (g : Nat → Nat) (h : Nat → α) :
    ∀ (n : Nat) (l0 : List α),
    ((List.range n).foldl (fun ps i => ps.set (g i) (h i)) l0).length = l0.length := by
  intro n
  induction n with
  | zero => intro l0; rfl
  | succ n ih =>
    intro l0
    rw [List.range_succ, List.foldl_append]
    simp only [List.foldl_cons, List.foldl_nil, List.length_set]
    exact ih l0

theorem foldl_set_getD_miss {α : Type} (g : Nat → Nat) (h : Nat → α) (d : α) :
    ∀ (n : Nat) (l0 : List α) (b : Nat), (∀ i, i < n → g i ≠ b) →
    ((List.range n).foldl (fun ps i => ps.set (g i) (h i)) l0).getD b d
      = l0.getD b d := by
  intro n
  induction n with
  | zero => intro l0 b _; rfl
  | succ n ih =>
    intro l0 b hmiss
    rw [List.range_succ, List.foldl_append]
    simp only [List.foldl_cons, List.foldl_nil]
    rw [getD_set_other _ _ _ _ _ (hmiss n (by omega))]
    exact ih l0 b (fun i hi => hmiss i (by omega))

theorem foldl_set_getD_hit {α : Type} (g : Nat → Nat) (h : Nat → α) (d : α) :
    ∀ (n : Nat) (l0 : List α) (i : Nat), i < n → g i < l0.length →
    (∀ i2, i < i2 → i2 < n → g i2 ≠ g i) →
    ((List.range n).foldl (fun ps i => ps.set (g i) (h i)) l0).getD (g i) d
      = h i := by
  intro n
  induction n with
  | zero => intro l0 i hi _ _; omega
  | succ n ih =>
    intro l0 i hi hglen hdist
    rw [List.range_succ, List.foldl_append]
    simp only [List.foldl_cons, List.foldl_nil]
    by_cases hin : i = n
    · subst hin
      exact getD_set_self _ _ _ _ (by rw [foldl_set_length]; exact hglen)
    · rw [getD_set_other _ _ _ _ _ (hdist n (by omega) (by omega))]
      exact ih l0 i (by omega) hglen (fun i2 h1 h2 => hdist i2 h1 (by omega))

theorem lin_insert_inv {T : Type} (size len : Nat) (keys : List Nat)
    (vals : List (Option T)) (t key : Nat) (value : T)
    (hkl : keys.length = len) (hvl : vals.length = len) (hlen : len < size)
    (ht : t ≤ len)
    (hsort : keys.Pairwise (· < ·)) (hkb : ∀ k ∈ keys, k < 256)
    (hvs : ∀ v ∈ vals, v.isSome = true)
    (htake : ∀ a ∈ keys.take t, a < key) (hdrop : ∀ a ∈ keys.drop t, key < a)
    (hkey : key < 256) :
    InvLin size (len + 1)
      (ByteMap.linInsertAt (keys ++ List.replicate (size - len) 0) t key)
      (ByteMap.linInsertAt (vals ++ List.replicate (size - len) none) t (some value)) := by
  have hbytes : ByteMap.linInsertAt (keys ++ List.replicate (size - len) 0) t key
      = (keys.take t ++ key :: keys.drop t) ++ List.replicate (size - (len + 1)) 0 := by
    unfold ByteMap.linInsertAt
    rw [take_append_of_le _ _ _ (by omega), drop_append_of_le _ _ _ (by omega)]
    rw [dropLast_append_ne _ _ (by
      have he : size - len = (size - len - 1) + 1 := by omega
      rw [he]
      simp [List.replicate_succ])]
    have he : size - len = (size - len - 1) + 1 := by omega
    rw [he, dropLast_replicate_succ]
    have he2 : size - (len + 1) = size - len - 1 := by omega
    rw [he2]
    simp [List.append_assoc]
  have hvalsr : ByteMap.linInsertAt (vals ++ List.replicate (size - len) none) t (some value)
      = (vals.take t ++ some value :: vals.drop t)
        ++ List.replicate (size - (len + 1)) (none : Option T) := by
    unfold ByteMap.linInsertAt
    rw [take_append_of_le _ _ _ (by omega), drop_append_of_le _ _ _ (by omega)]
    rw [dropLast_append_ne _ _ (by
      have he : size - len = (size - len - 1) + 1 := by omega
      rw [he]
      simp [List.replicate_succ])]
    have he : size - len = (size - len - 1) + 1 := by omega
    rw [he, dropLast_replicate_succ]
    have he2 : size - (len + 1) = size - len - 1 := by omega
    rw [he2]
    simp [List.append_assoc]
  rw [hbytes, hvalsr]
  refine ⟨by omega, keys.take t ++ key :: keys.drop t, vals.take t ++ some value :: vals.drop t,
    ?_, ?_, rfl, rfl, ?_, ?_, ?_⟩
  · simp only [List.length_append, List.length_take, List.length_cons, List.length_drop]
    omega
  · simp only [List.length_append, List.length_take, List.length_cons, List.length_drop]
    omega
  · rw [List.pairwise_append]
    refine ⟨hsort.sublist (List.take_sublist t keys), ?_, ?_⟩
    · rw [List.pairwise_cons]
      exact ⟨hdrop, hsort.sublist (List.drop_sublist t keys)⟩
    · intro a ha c hc
      rcases List.mem_cons.mp hc with rfl | hc
      · exact htake a ha
      · exact Nat.lt_trans (htake a ha) (hdrop c hc)
  · intro k hk
    rcases List.mem_append.mp hk with hk | hk
    · exact hkb k (List.mem_of_mem_take hk)
    · rcases List.mem_cons.mp hk with rfl | hk
      · exact hkey
      · exact hkb k (List.mem_of_mem_drop hk)
  · intro v hv
    rcases List.mem_append.mp hv with hv | hv
    · exact hvs v (List.mem_of_mem_take hv)
    · rcases List.mem_cons.mp hv with rfl | hv
      · rfl
      · exact hvs v (List.mem_of_mem_drop hv)

theorem lin_set_inv {T : Type} (size len : Nat) (keys : List Nat)
    (vals : List (Option T)) (t : Nat) (value : T)
    (hkl : keys.length = len) (hvl : vals.length = len) (hls : len ≤ size)
    (ht : t < len)
    (hsort : keys.Pairwise (· < ·)) (hkb : ∀ k ∈ keys, k < 256)
    (hvs : ∀ v ∈ vals, v.isSome = true) :
    InvLin size len (keys ++ List.replicate (size - len) 0)
      ((vals ++ List.replicate (size - len) none).set t (some value)) := by
  rw [set_append_left _ _ _ _ (by omega)]
  refine ⟨hls, keys, vals.set t (some value), hkl, by simp [hvl], rfl, rfl, hsort, hkb, ?_⟩
  intro v hv
  rcases List.mem_or_eq_of_mem_set hv with hv | rfl
  · exact hvs v hv
  · rfl

theorem lin_remove_inv {T : Type} (size len : Nat) (keys : List Nat)
    (vals : List (Option T)) (t : Nat)
    (hkl : keys.length = len) (hvl : vals.length = len) (hls : len ≤ size)
    (ht : t < len)
    (hsort : keys.Pairwise (· < ·)) (hkb : ∀ k ∈ keys, k < 256)
    (hvs : ∀ v ∈ vals, v.isSome = true) :
    InvLin size (len - 1)
      (ByteMap.linRemoveAt (keys ++ List.replicate (size - len) 0) t 0)
      (ByteMap.linRemoveAt (vals ++ List.replicate (size - len) none) t none) := by
  have hbytes : ByteMap.linRemoveAt (keys ++ List.replicate (size - len) 0) t 0
      = keys.eraseIdx t ++ List.replicate (size - (len - 1)) 0 := by
    unfold ByteMap.linRemoveAt
    rw [take_append_of_le _ _ _ (by omega), drop_append_of_le _ _ _ (by omega)]
    rw [List.eraseIdx_eq_take_drop_succ]
    have he : size - (len - 1) = (size - len) + 1 := by omega
    rw [he, List.replicate_succ']
    simp [List.append_assoc]
  have hvalsr : ByteMap.linRemoveAt (vals ++ List.replicate (size - len) none) t none
      = vals.eraseIdx t ++ List.replicate (size - (len - 1)) (none : Option T) := by
    unfold ByteMap.linRemoveAt
    rw [take_append_of_le _ _ _ (by omega), drop_append_of_le _ _ _ (by omega)]
    rw [List.eraseIdx_eq_take_drop_succ]
    have he : size - (len - 1) = (size - len) + 1 := by omega
    rw [he, List.replicate_succ']
    simp [List.append_assoc]
  rw [hbytes, hvalsr]
  refine ⟨by omega, keys.eraseIdx t, vals.eraseIdx t, ?_, ?_, rfl, rfl, ?_, ?_, ?_⟩
  · rw [List.length_eraseIdx]
    simp [hkl, ht]
  · rw [List.length_eraseIdx]
    simp [hvl, ht]
  · exact hsort.sublist (List.eraseIdx_sublist keys t)
  · intro k hk
    exact hkb k ((List.eraseIdx_sublist keys t).subset hk)
  · intro v hv
    exact hvs v ((List.eraseIdx_sublist vals t).subset hv)

end PSearch
